import Mathlib

/-!
Shallow embedding of the pulse-propagation network simulator and periodicity
analyzer of `src/day20.rs` (Advent of Code 2023, day 20).

Rust `usize` values are modelled as `Nat` (the program only adds, multiplies,
divides and takes lcm of small counters, so wrap-around never matters; the one
subtraction, `num_high -= 1`, is guarded in the source by `memory[input] ==
High` and is only exercised in our theorems under the invariant that makes it
non-truncating).  Fallible operations (`unwrap`, `assert!`, slice indexing)
are modelled with `Option`/`Except`.  Rust's `VecDeque` event queue is a
`List Event` with push-back at the end and pop-front at the head.  The two
recursions that are not structural in the source (the drain loop and the
analyzer's recursion through the module graph) take an explicit fuel
argument.
-/

namespace Day20

/-- Binary signal value exchanged between modules (source `enum Pulse`).
The derived Rust `Ord` uses declaration order, so `High < Low`. -/
inductive Pulse
  | High
  | Low
deriving DecidableEq

/-- `impl Not for Pulse` : swap High and Low. -/
def Pulse.not : Pulse → Pulse
  | Pulse.High => Pulse.Low
  | Pulse.Low => Pulse.High

/-- Rank realising the derived `Ord` on `Pulse` (`High < Low`). -/
def pulseRank : Pulse → Nat
  | Pulse.High => 0
  | Pulse.Low => 1

/-- Source `struct PulseAtTime(usize, Pulse)`: a pulse at a press offset
inside a period. -/
structure PulseAtTime where
  time : Nat
  pulse : Pulse
deriving DecidableEq

/-- The derived lexicographic (non-strict) order on `PulseAtTime`. -/
def patLe (a b : PulseAtTime) : Prop :=
  a.time < b.time ∨ (a.time = b.time ∧ pulseRank a.pulse ≤ pulseRank b.pulse)

instance (a b : PulseAtTime) : Decidable (patLe a b) :=
  inferInstanceAs (Decidable (_ ∨ _))

/-- The derived lexicographic order on `(PulseAtTime, usize)` pairs, used by
the conjunction analyzer's `sorted` call. -/
def pairLe (a b : PulseAtTime × Nat) : Prop :=
  (a.1.time < b.1.time ∨ (a.1.time = b.1.time ∧ pulseRank a.1.pulse < pulseRank b.1.pulse))
    ∨ (a.1 = b.1 ∧ a.2 ≤ b.2)

instance (a b : PulseAtTime × Nat) : Decidable (pairLe a b) :=
  inferInstanceAs (Decidable (_ ∨ _))

/-- Source `struct PulseCounter`: counts of high and low pulses observed. -/
structure PulseCounter where
  high : Nat
  low : Nat
deriving DecidableEq

/-- `Default` for `PulseCounter`: both counters zero. -/
def PulseCounter.zero : PulseCounter := ⟨0, 0⟩

/-- `impl AddAssign<Pulse> for PulseCounter`. -/
def PulseCounter.addPulse (c : PulseCounter) : Pulse → PulseCounter
  | Pulse.High => { c with high := c.high + 1 }
  | Pulse.Low => { c with low := c.low + 1 }

/-- `impl Add<PulseCounter> for PulseCounter`: componentwise sum. -/
def PulseCounter.add (a b : PulseCounter) : PulseCounter :=
  ⟨a.high + b.high, a.low + b.low⟩

/-- `impl Mul<usize> for PulseCounter`: componentwise scaling. -/
def PulseCounter.mulNat (a : PulseCounter) (n : Nat) : PulseCounter :=
  ⟨a.high * n, a.low * n⟩

/-- `impl From<PulseCounter> for usize`: the product of the two counts. -/
def PulseCounter.toUsize (a : PulseCounter) : Nat := a.high * a.low

/-- Source `struct Event`: an (origin, target, pulse) triple.  The Rust field
`from` is called `src` here because `from` is a Lean keyword. -/
structure Event where
  src : Nat
  tgt : Nat
  pulse : Pulse
deriving DecidableEq

/-- Source `struct Broadcaster`. -/
structure Broadcaster where
  id : Nat
  outputs : List Nat
  inputs : List Nat
deriving DecidableEq

/-- `Broadcaster::new`. -/
def Broadcaster.new (id : Nat) (outputs : List Nat) : Broadcaster :=
  ⟨id, outputs, []⟩

/-- Source `struct FlipFlop`. -/
structure FlipFlop where
  id : Nat
  state : Pulse
  outputs : List Nat
  inputs : List Nat
deriving DecidableEq

/-- `FlipFlop::new`: starts in the Low ("off") state. -/
def FlipFlop.new (id : Nat) (outputs : List Nat) : FlipFlop :=
  ⟨id, Pulse.Low, outputs, []⟩

/-- Source `struct Conjunction`.  `memory` has one slot per module of the
whole graph, indexed by module id; `none` models Rust's `None` (input not
registered). -/
structure Conjunction where
  id : Nat
  inputs : List Nat
  outputs : List Nat
  memory : List (Option Pulse)
  num_high : Nat
  total_registered : Nat
deriving DecidableEq

/-- `Conjunction::new`. -/
def Conjunction.new (id : Nat) (outputs : List Nat) (num_modules : Nat) : Conjunction :=
  ⟨id, [], outputs, List.replicate num_modules none, 0, 0⟩

/-- `Broadcaster::receive_pulse`: re-emit the received pulse to every
output (the `from` argument is ignored). -/
def Broadcaster.receive_pulse (b : Broadcaster) (pulse : Pulse) : List Event :=
  b.outputs.map fun t => ⟨b.id, t, pulse⟩

/-- `FlipFlop::receive_pulse`: High is ignored; Low toggles the state and
emits the new state to every output. -/
def FlipFlop.receive_pulse (f : FlipFlop) (pulse : Pulse) : FlipFlop × List Event :=
  if pulse = Pulse.Low then
    let f' : FlipFlop := { f with state := f.state.not }
    (f', f'.outputs.map fun t => ⟨f'.id, t, f'.state⟩)
  else
    (f, [])

/-- `Conjunction::receive_pulse`: update the memory slot of the sender first
(the source `unwrap`s the slot, so an unregistered or out-of-range sender is
a panic, modelled by `none`), then emit Low to every output if the remembered
high count equals the registered input count, otherwise High. -/
def Conjunction.receive_pulse (c : Conjunction) (input : Nat) (pulse : Pulse) :
    Option (Conjunction × List Event) :=
  match c.memory.get? input with
  | none => none
  | some none => none
  | some (some remembered) =>
    let c' : Conjunction :=
      match pulse, remembered with
      | Pulse.High, Pulse.Low =>
        { c with num_high := c.num_high + 1,
                 memory := c.memory.set input (some Pulse.High) }
      | Pulse.High, Pulse.High => c
      | Pulse.Low, Pulse.High =>
        { c with num_high := c.num_high - 1,
                 memory := c.memory.set input (some Pulse.Low) }
      | Pulse.Low, Pulse.Low => c
    let pulse_to_send := if c'.num_high = c'.total_registered then Pulse.Low else Pulse.High
    some (c', c'.outputs.map fun t => ⟨c'.id, t, pulse_to_send⟩)

/-- `Broadcaster::register_input_module`. -/
def Broadcaster.register_input_module (b : Broadcaster) (m : Nat) : Broadcaster :=
  { b with inputs := b.inputs ++ [m] }

/-- `FlipFlop::register_input_module`. -/
def FlipFlop.register_input_module (f : FlipFlop) (m : Nat) : FlipFlop :=
  { f with inputs := f.inputs ++ [m] }

/-- `Conjunction::register_input_module`: asserts the slot is still unset
(`assert!(self.memory[module].is_none())`); an already-set slot or an
out-of-range id is a panic, modelled by `none`. -/
def Conjunction.register_input_module (c : Conjunction) (m : Nat) : Option Conjunction :=
  match c.memory.get? m with
  | none => none
  | some (some _) => none
  | some none =>
    some { c with total_registered := c.total_registered + 1,
                  memory := c.memory.set m (some Pulse.Low),
                  inputs := c.inputs ++ [m] }

/-- Source `enum ModuleVariant`. -/
inductive ModuleVariant
  | broadcaster (b : Broadcaster)
  | flipflop (f : FlipFlop)
  | conjunction (c : Conjunction)
deriving DecidableEq

/-- Source `struct Module`. -/
structure Module where
  name : String
  variant : ModuleVariant
  counts : PulseCounter
deriving DecidableEq

/-- The id stored in the module's variant. -/
def Module.mid (m : Module) : Nat :=
  match m.variant with
  | ModuleVariant.broadcaster b => b.id
  | ModuleVariant.flipflop f => f.id
  | ModuleVariant.conjunction c => c.id

/-- `ModuleTrait::get_outputs` dispatch. -/
def Module.outputs (m : Module) : List Nat :=
  match m.variant with
  | ModuleVariant.broadcaster b => b.outputs
  | ModuleVariant.flipflop f => f.outputs
  | ModuleVariant.conjunction c => c.outputs

/-- Variant-level `receive_pulse` dispatch (only the conjunction can panic). -/
def ModuleVariant.receive_pulse (v : ModuleVariant) (input : Nat) (pulse : Pulse) :
    Option (ModuleVariant × List Event) :=
  match v with
  | ModuleVariant.broadcaster b => some (ModuleVariant.broadcaster b, b.receive_pulse pulse)
  | ModuleVariant.flipflop f =>
    let r := f.receive_pulse pulse
    some (ModuleVariant.flipflop r.1, r.2)
  | ModuleVariant.conjunction c =>
    (c.receive_pulse input pulse).map fun r => (ModuleVariant.conjunction r.1, r.2)

/-- `Module::receive_pulse`: counts the delivered pulse, then dispatches. -/
def Module.receive_pulse (m : Module) (input : Nat) (pulse : Pulse) :
    Option (Module × List Event) :=
  (m.variant.receive_pulse input pulse).map fun r =>
    ({ m with variant := r.1, counts := m.counts.addPulse pulse }, r.2)

/-- `ModuleTrait::is_in_initial_state` dispatch: Broadcaster always, FlipFlop
iff its state is Low, Conjunction iff its remembered-high count is zero. -/
def Module.is_in_initial_state (m : Module) : Bool :=
  match m.variant with
  | ModuleVariant.broadcaster _ => true
  | ModuleVariant.flipflop f => f.state = Pulse.Low
  | ModuleVariant.conjunction c => c.num_high = 0

/-- `Module::register_input_module` dispatch. -/
def Module.register_input_module (m : Module) (i : Nat) : Option Module :=
  match m.variant with
  | ModuleVariant.broadcaster b =>
    some { m with variant := ModuleVariant.broadcaster (b.register_input_module i) }
  | ModuleVariant.flipflop f =>
    some { m with variant := ModuleVariant.flipflop (f.register_input_module i) }
  | ModuleVariant.conjunction c =>
    (c.register_input_module i).map fun c' => { m with variant := ModuleVariant.conjunction c' }

/-- `Module::is_broadcaster`. -/
def Module.is_broadcaster (m : Module) : Bool :=
  match m.variant with
  | ModuleVariant.broadcaster _ => true
  | _ => false

/-- `Module::get_pulse_counts` summed over the whole collection
(`modules.iter().map(|m| m.get_pulse_counts()).sum()`). -/
def totalCounts (ms : List Module) : PulseCounter :=
  ms.foldr (fun m acc => m.counts.add acc) PulseCounter.zero

/-- `EventQueue::drain` with explicit fuel: pop the oldest event, deliver it
to the target module (an out-of-range target is the Rust index panic), append
the newly produced events at the back of the queue, repeat until the queue is
empty. -/
def drainFuel : Nat → List Module → List Event → Option (List Module)
  | _, ms, [] => some ms
  | 0, _, _ :: _ => none
  | fuel + 1, ms, e :: q =>
    match ms.get? e.tgt with
    | none => none
    | some m =>
      match m.receive_pulse e.src e.pulse with
      | none => none
      | some (m', evs) => drainFuel fuel (ms.set e.tgt m') (q ++ evs)

/-- One button press as performed by `part_1`: push a Low event from the
broadcaster to itself and drain the queue. -/
def pressOnce (fuel b : Nat) (ms : List Module) : Option (List Module) :=
  drainFuel fuel ms [⟨b, b, Pulse.Low⟩]

/-- `n` consecutive button presses (the `for _ in 0..remaining` loop). -/
def pressN (fuel b : Nat) : Nat → List Module → Option (List Module)
  | 0, ms => some ms
  | n + 1, ms => (pressOnce fuel b ms).bind (pressN fuel b n)

/-- `modules.iter().all(|m| m.is_in_initial_state())`. -/
def allInitial (ms : List Module) : Bool :=
  ms.all Module.is_in_initial_state

/-- `Vec::repeat`: `n` concatenated copies of the list (offsets are NOT
shifted between copies — this mirrors the source exactly). -/
def repeatL (l : List PulseAtTime) (n : Nat) : List PulseAtTime :=
  (List.replicate n l).flatten

/-- `Vec::repeat` for the conjunction analyzer's (pulse, input-index) pairs. -/
def repeatP (l : List (PulseAtTime × Nat)) (n : Nat) : List (PulseAtTime × Nat) :=
  (List.replicate n l).flatten

/-- `Iterator::reduce` specialised to `num::integer::lcm`: `none` on an empty
list (the source `unwrap`s the result, panicking there). -/
def reduceLcm : List Nat → Option Nat
  | [] => none
  | x :: xs => some (xs.foldl Nat.lcm x)

/-- Source `merge_periods`: total period is the lcm of all periods; each
input's pulse list is repeated `full_period / period` times (by plain
concatenation), then everything is flattened and sorted by the derived order.
`itertools::sorted` is a stable sort, but since equal `PulseAtTime`s are
indistinguishable values, any sorted permutation is the same list; we use
insertion sort. -/
def merge_periods (periods : List (List PulseAtTime × Nat)) :
    Option (List PulseAtTime × Nat) :=
  match reduceLcm (periods.map (·.2)) with
  | none => none
  | some full_period =>
    some (((periods.map fun pp => repeatL pp.1 (full_period / pp.2)).flatten).insertionSort patLe,
      full_period)

/-- `collect::<Option<Vec<_>>>`: apply `g` to every element, short-circuiting
on the first `none`. -/
def mapMo (g : α → Option β) : List α → Option (List β)
  | [] => some []
  | x :: xs =>
    match g x with
    | none => none
    | some y => (mapMo g xs).map fun ys => y :: ys

/-- Effectful map for `Except`, short-circuiting on the first error (models
the sequential recursion of the analyzer's `map` + `collect_vec`, where a
panic in any child aborts everything). -/
def mapMex (g : α → Except ε β) : List α → Except ε (List β)
  | [] => Except.ok []
  | x :: xs =>
    match g x with
    | Except.error e => Except.error e
    | Except.ok y => (mapMex g xs).map fun ys => y :: ys

/-- Errors of the fuel-based analyzer embedding.  `cycle name` models the
source panic `"Already visited module {name}!!!"`; `emptyInputs` models the
`unwrap` of `reduce` on an empty iterator; `badIndex` models slice-index
panics; `outOfFuel` only reports fuel exhaustion of the embedding. -/
inductive AnalyzeErr
  | cycle (name : String)
  | emptyInputs
  | badIndex
  | outOfFuel
deriving DecidableEq

instance {ε α : Type} [DecidableEq ε] [DecidableEq α] : DecidableEq (Except ε α) := fun a b =>
  match a, b with
  | Except.error x, Except.error y => decidable_of_iff (x = y) (by simp)
  | Except.error _, Except.ok _ => isFalse (by simp)
  | Except.ok _, Except.error _ => isFalse (by simp)
  | Except.ok x, Except.ok y => decidable_of_iff (x = y) (by simp)

/-- Look a module up by id, as `other_modules[*i]` (panic on out-of-range). -/
def moduleAt (ms : List Module) (i : Nat) : Except AnalyzeErr Module :=
  match ms.get? i with
  | none => Except.error AnalyzeErr.badIndex
  | some m => Except.ok m

/-- `filter(|p| p.1 == Pulse::Low)` of the flip-flop analyzer. -/
def filterLow (l : List PulseAtTime) : List PulseAtTime :=
  l.filter fun p => p.pulse = Pulse.Low

/-- The flip-flop analyzer's odd-length compensation: `pulses.repeat(2)`
when the filtered list has odd length. -/
def doubleIfOdd (l : List PulseAtTime) : List PulseAtTime :=
  if l.length % 2 = 1 then l ++ l else l

/-- The flip-flop analyzer's alternation pass: starting from High, replace
the pulse of each entry in list order with High, Low, High, ... -/
def alternateFromHigh (l : List PulseAtTime) : List PulseAtTime :=
  l.enum.map fun p =>
    { p.2 with pulse := if p.1 % 2 = 0 then Pulse.High else Pulse.Low }

/-- The conjunction analyzer's symbolic replay: walk the sorted
period-extended union of parent events, updating a per-parent memory vector,
and emit Low exactly when no remembered pulse is Low
(`memory.contains(&Pulse::Low)` decides High). -/
def conjReplay : List Pulse → List (PulseAtTime × Nat) → List PulseAtTime
  | _, [] => []
  | mem, (pt, i) :: rest =>
    let mem' := mem.set i pt.pulse
    let e := if mem'.contains Pulse.Low then Pulse.High else Pulse.Low
    ⟨pt.time, e⟩ :: conjReplay mem' rest

/-- The conjunction analyzer's merge: keep the parent index with every pulse,
extend each parent's list to the full period by concatenated repetition,
flatten and sort by the derived pair order. -/
def conjMergedData (periods : List (List PulseAtTime × Nat)) (full_period : Nat) :
    List (PulseAtTime × Nat) :=
  ((periods.enum.map fun ip =>
      repeatP (ip.2.1.map fun p => (p, ip.1)) (full_period / ip.2.2)).flatten).insertionSort pairLe

/-- `Module::get_presses_required_for_pulse` with explicit fuel: panic with a
cycle diagnostic if this module's name is already on the visited stack, then
push the name and dispatch on the variant, recursing into all registered
inputs.  (The functional stack passing reproduces the source's push/pop
discipline: a child call sees exactly its ancestors.) -/
def getPresses (fuel : Nat) (ms : List Module) (m : Module) (stack : List String) :
    Except AnalyzeErr (List PulseAtTime × Nat) :=
  if m.name ∈ stack then Except.error (AnalyzeErr.cycle m.name)
  else
    match fuel with
    | 0 => Except.error AnalyzeErr.outOfFuel
    | fuel + 1 =>
      let stack' := stack ++ [m.name]
      match m.variant with
      | ModuleVariant.broadcaster b =>
        if b.inputs.isEmpty then Except.ok ([⟨0, Pulse.Low⟩], 1)
        else do
          let input_data ← mapMex (fun i => do
            let mi ← moduleAt ms i
            getPresses fuel ms mi stack') b.inputs
          match merge_periods input_data with
          | none => Except.error AnalyzeErr.emptyInputs
          | some r => Except.ok r
      | ModuleVariant.flipflop f => do
        let input_data ← mapMex (fun i => do
          let mi ← moduleAt ms i
          let r ← getPresses fuel ms mi stack'
          pure (filterLow r.1, r.2)) f.inputs
        match merge_periods input_data with
        | none => Except.error AnalyzeErr.emptyInputs
        | some (pulses, period) =>
          Except.ok (alternateFromHigh (doubleIfOdd pulses), period)
      | ModuleVariant.conjunction c => do
        let periods ← mapMex (fun i => do
          let mi ← moduleAt ms i
          getPresses fuel ms mi stack') c.inputs
        match reduceLcm (periods.map (·.2)) with
        | none => Except.error AnalyzeErr.emptyInputs
        | some full_period =>
          Except.ok (conjReplay (List.replicate periods.length Pulse.Low)
            (conjMergedData periods full_period), full_period)

/-- `str::split_once` on char lists: split at the first occurrence of `sep`,
returning the parts before and after; `none` when `sep` does not occur. -/
def splitOnceL (sep : List Char) : List Char → Option (List Char × List Char)
  | [] => none
  | c :: rest =>
    if sep.isPrefixOf (c :: rest) then some ([], (c :: rest).drop sep.length)
    else (splitOnceL sep rest).map fun pr => (c :: pr.1, pr.2)

/-- Worker for `str::split`: `skip` counts separator characters still to be
consumed, `acc` is the current piece reversed. -/
def splitCore (sep : List Char) : List Char → Nat → List Char → List (List Char)
  | [], _, acc => [acc.reverse]
  | _ :: rest, skip + 1, acc => splitCore sep rest skip acc
  | c :: rest, 0, acc =>
    if sep.isPrefixOf (c :: rest) then
      acc.reverse :: splitCore sep rest (sep.length - 1) []
    else
      splitCore sep rest 0 (c :: acc)

/-- `str::split` on a (non-empty) separator. -/
def splitFullL (sep l : List Char) : List (List Char) :=
  splitCore sep l 0 []

/-- `str::lines`: split on a newline character; one trailing empty piece (a
terminating newline) is dropped, and the empty string has no lines.  (The
inputs contain no CR characters, so `\r\n` handling is not modelled.) -/
def linesOf (s : String) : List String :=
  let parts := splitFullL ['\n'] s.data
  let parts := if parts.getLast? = some [] then parts.dropLast else parts
  parts.map fun l => String.mk l

/-- `str::replace(['%', '&'], "")`. -/
def removeMarkers (l : List Char) : List Char :=
  l.filter fun c => ¬(c = '%' ∨ c = '&')

/-- The parsed name→id map.  The source collects into a `HashMap`, of which
only `get` and `len` are used; we model it as an association list with
insert-overwrite (later lines win on duplicate names, as in `HashMap`). -/
def insertKV (m : List (String × Nat)) (k : String) (v : Nat) : List (String × Nat) :=
  if (m.lookup k).isSome then m.map (fun p => if p.1 = k then (k, v) else p)
  else m ++ [(k, v)]

/-- The ` -> ` separator. -/
def arrowSep : List Char := [' ', '-', '>', ' ']

/-- The `, ` separator of output lists. -/
def commaSep : List Char := [',', ' ']

/-- Source `extract_module_name_from_line`: remove the `%`/`&` markers and
take everything before the ` -> ` separator (`unwrap` panics when the
separator is missing). -/
def extract_module_name_from_line (line : String) : Option String :=
  (splitOnceL arrowSep (removeMarkers line.data)).map fun pr => String.mk pr.1

/-- Source `make_mod_names_map`: map each line's extracted name to its line
index (a fallible operation because of the `unwrap` in the extractor). -/
def make_mod_names_map (input : String) : Option (List (String × Nat)) :=
  (mapMo (fun p => (extract_module_name_from_line p.2).map fun n => (n, p.1))
      (linesOf input).enum).map
    fun pairs => pairs.foldl (fun m p => insertKV m p.1 p.2) []

/-- Source `load_outputs`: an empty output string is no outputs; otherwise
split on `", "` and resolve each name through the map, defaulting unknown
names to `map.len()` (the synthetic debug sink). -/
def load_outputs (outputs : String) (mod_names_to_ids : List (String × Nat)) : List Nat :=
  if outputs = "" then []
  else (splitFullL commaSep outputs.data).map fun nm =>
    (mod_names_to_ids.lookup (String.mk nm)).getD mod_names_to_ids.length

/-- Source `Module::new`: `unwrap`s the first character and the ` -> ` split
(panic on an empty line or missing separator); the leading character selects
the variant, any character other than `%`/`&` giving a Broadcaster. -/
def Module.new (id : Nat) (line : String) (mod_names_to_ids : List (String × Nat)) :
    Option Module :=
  match line.data.head? with
  | none => none
  | some mod_type =>
    match splitOnceL arrowSep line.data with
    | none => none
    | some pr =>
      let outputs := load_outputs (String.mk pr.2) mod_names_to_ids
      match extract_module_name_from_line line with
      | none => none
      | some name =>
        let variant :=
          if mod_type = '%' then ModuleVariant.flipflop (FlipFlop.new id outputs)
          else if mod_type = '&' then
            ModuleVariant.conjunction (Conjunction.new id outputs mod_names_to_ids.length)
          else ModuleVariant.broadcaster (Broadcaster.new id outputs)
        some { name := name, variant := variant, counts := PulseCounter.zero }

/-- One step of the registration double loop of `set_up_modules`:
`modules[out].register_input_module(i)` (with the index panic modelled). -/
def registerAt (ms : List Module) (i o : Nat) : Option (List Module) :=
  match ms.get? o with
  | none => none
  | some m => (m.register_input_module i).map fun m' => ms.set o m'

/-- The registration double loop of `set_up_modules`, flattened to the list
of (input id, output id) pairs in loop order. -/
def regAll : List Module → List (Nat × Nat) → Option (List Module)
  | ms, [] => some ms
  | ms, (i, o) :: rest => (registerAt ms i o).bind fun ms' => regAll ms' rest

/-- The flattened (input id, output id) pairs of the registration loop. -/
def regPairs (outs : List (List Nat)) : List (Nat × Nat) :=
  (outs.enum.map fun p => p.2.map fun o => (p.1, o)).flatten

/-- Source `set_up_modules`: build the name map, parse one module per line,
append the synthetic `debug` sink, then register every output edge with its
target. -/
def set_up_modules (input : String) : Option (List Module) :=
  match make_mod_names_map input with
  | none => none
  | some mod_names =>
    match mapMo (fun p => Module.new p.1 p.2 mod_names) (linesOf input).enum with
    | none => none
    | some modules =>
      let outputs := modules.map Module.outputs
      match Module.new modules.length "debug -> " mod_names with
      | none => none
      | some dbg => regAll (modules ++ [dbg]) (regPairs outputs)

/-- Source `find_broadcaster_module` (`find_position` + `unwrap`). -/
def find_broadcaster_module (ms : List Module) : Option Nat :=
  ms.findIdx? Module.is_broadcaster

/-- Source `find_with_name`. -/
def find_with_name (ms : List Module) (name : String) : Option Nat :=
  ms.findIdx? fun m => m.name = name

/-- The cycle-search loop of `part_1`: keep pressing while `push_count == 0`
or some module is away from its initial state, stopping at 1000 presses.  The
first argument is an iteration budget (1000 at the top call, so the budget
never runs out before the source's own `push_count == 1000` break). -/
def cycleLoop (fuel b : Nat) : Nat → List Module → Nat → Option (List Module × Nat)
  | 0, _, _ => none
  | k + 1, ms, push_count =>
    if push_count = 0 ∨ ¬allInitial ms then
      match pressOnce fuel b ms with
      | none => none
      | some ms' =>
        if push_count + 1 = 1000 then some (ms', push_count + 1)
        else cycleLoop fuel b k ms' (push_count + 1)
    else some (ms, push_count)

/-- Source `part_1` (with drain fuel made explicit): search for the cycle,
extrapolate `1000 / push_count` whole cycles, replay the remaining presses
directly, and return high-count × low-count. -/
def part_1 (fuel : Nat) (input : String) : Option Nat :=
  match set_up_modules input with
  | none => none
  | some modules =>
    match find_broadcaster_module modules with
    | none => none
    | some broadcaster_id =>
      match cycleLoop fuel broadcaster_id 1000 modules 0 with
      | none => none
      | some (ms1, push_count) =>
        let pulses_per_cycle := totalCounts ms1
        let num_cycles := 1000 / push_count
        let remaining_pushes := 1000 - num_cycles * push_count
        match pressN fuel broadcaster_id remaining_pushes ms1 with
        | none => none
        | some ms2 =>
          some ((totalCounts ms2).add (pulses_per_cycle.mulNat (num_cycles - 1))).toUsize

/-- Source `part_2` (with analyzer fuel made explicit): analyze the synthetic
`debug` sink and return the offset of the first Low entry of its schedule,
plus one. -/
def part_2 (fuel : Nat) (input : String) : Option Nat :=
  match set_up_modules input with
  | none => none
  | some modules =>
    match find_with_name modules "debug" with
    | none => none
    | some rx_id =>
      match modules.get? rx_id with
      | none => none
      | some m =>
        match getPresses fuel modules m [] with
        | Except.error _ => none
        | Except.ok r =>
          match r.1.find? (fun p => p.pulse = Pulse.Low) with
          | none => none
          | some p => some (p.time + 1)

/-- The Scenario A graph of the source's `test_part_1_simple`. -/
def scenarioA : String :=
  "broadcaster -> a, b, c\n%a -> b\n%b -> c\n%c -> inv\n&inv -> a"

/-- The Scenario B graph of the source's `test_part_1_advanced` and
`test_part_2`. -/
def scenarioB : String :=
  "broadcaster -> a\n%a -> inv, con\n&inv -> b\n%b -> con\n&con -> output"

/-- Number of memory slots of a conjunction currently remembered High. -/
def countHigh (mem : List (Option Pulse)) : Nat :=
  mem.countP fun x => x = some Pulse.High

/-- Number of registered (= `Some`) memory slots of a conjunction. -/
def countSome (mem : List (Option Pulse)) : Nat :=
  mem.countP fun x => x.isSome

/-- The conjunction's count consistency invariant: `num_high` equals the
number of memory slots remembered High. -/
def conjInv (c : Conjunction) : Prop :=
  c.num_high = countHigh c.memory

instance (c : Conjunction) : Decidable (conjInv c) :=
  inferInstanceAs (Decidable (_ = _))

/-- Setting a list element, stated as a balance of `countP` counts. -/
theorem countP_set_balance {α : Type} (p : α → Bool) :
    ∀ (l : List α) (i : Nat) (a v : α), l.get? i = some a →
      (l.set i v).countP p + (if p a then 1 else 0) = l.countP p + (if p v then 1 else 0)
  | [], i, a, v, h => by simp at h
  | x :: t, 0, a, v, h => by
    simp only [List.get?] at h
    cases h
    simp only [List.set, List.countP_cons]
    omega
  | x :: t, i + 1, a, v, h => by
    simp only [List.get?] at h
    have ih := countP_set_balance p t i a v h
    simp only [List.set, List.countP_cons]
    omega

/-- Setting an index to the value it already holds leaves the list unchanged. -/
theorem set_get?_self {α : Type} :
    ∀ (l : List α) (i : Nat) (v : α), l.get? i = some v → l.set i v = l
  | [], _, _, h => by simp at h
  | x :: t, 0, v, h => by
    simp only [List.get?] at h
    cases h
    rfl
  | x :: t, i + 1, v, h => by
    simp only [List.get?] at h
    simp only [List.set]
    rw [set_get?_self t i v h]

/-- At most as many slots are remembered High as are registered. -/
theorem countHigh_le_countSome : ∀ mem : List (Option Pulse), countHigh mem ≤ countSome mem
  | [] => Nat.le_refl 0
  | x :: t => by
    have ih := countHigh_le_countSome t
    simp only [countHigh, countSome, List.countP_cons] at *
    cases x with
    | none => simpa using ih
    | some q => cases q <;> simp <;> omega

/-- The High count saturates the registered count exactly when every
registered slot is remembered High. -/
theorem countHigh_eq_countSome_iff :
    ∀ mem : List (Option Pulse),
      (countHigh mem = countSome mem ↔ ∀ x ∈ mem, x.isSome → x = some Pulse.High)
  | [] => by simp [countHigh, countSome]
  | x :: t => by
    have ih := countHigh_eq_countSome_iff t
    have hle := countHigh_le_countSome t
    simp only [countHigh, countSome, List.countP_cons, List.mem_cons] at *
    constructor
    · intro h y hy
      cases x with
      | none =>
        simp at h
        rcases hy with rfl | hy
        · intro hys; simp at hys
        · exact (ih.mp h) y hy
      | some q =>
        cases q with
        | High =>
          simp at h
          rcases hy with rfl | hy
          · intro _; rfl
          · exact (ih.mp h) y hy
        | Low =>
          simp at h
          omega
    · intro h
      cases x with
      | none =>
        simp
        exact ih.mpr fun y hy => h y (Or.inr hy)
      | some q =>
        have hx := h (some q) (Or.inl rfl) (by simp)
        have : q = Pulse.High := by cases hx; rfl
        subst this
        simp
        exact ih.mpr fun y hy => h y (Or.inr hy)

/-- A successful `Conjunction::receive_pulse` preserves the count
consistency invariant. -/
theorem conjInv_receive (c : Conjunction) (i : Nat) (p : Pulse) (c' : Conjunction)
    (evs : List Event) (hinv : conjInv c)
    (h : c.receive_pulse i p = some (c', evs)) : conjInv c' := by
  unfold Conjunction.receive_pulse at h
  cases hm : c.memory.get? i with
  | none => rw [hm] at h; simp at h
  | some o =>
    cases o with
    | none => rw [hm] at h; simp at h
    | some remembered =>
      rw [hm] at h
      unfold conjInv at hinv ⊢
      cases p with
      | High =>
        cases remembered with
        | High =>
          simp only [Option.some.injEq, Prod.mk.injEq] at h
          obtain ⟨rfl, -⟩ := h
          exact hinv
        | Low =>
          simp only [Option.some.injEq, Prod.mk.injEq] at h
          obtain ⟨rfl, -⟩ := h
          have hb := countP_set_balance (fun x => x = some Pulse.High) c.memory i
            (some Pulse.Low) (some Pulse.High) hm
          simp only [countHigh] at *
          simp at hb
          omega
      | Low =>
        cases remembered with
        | High =>
          simp only [Option.some.injEq, Prod.mk.injEq] at h
          obtain ⟨rfl, -⟩ := h
          have hb := countP_set_balance (fun x => x = some Pulse.High) c.memory i
            (some Pulse.High) (some Pulse.Low) hm
          simp only [countHigh] at *
          simp at hb
          omega
        | Low =>
          simp only [Option.some.injEq, Prod.mk.injEq] at h
          obtain ⟨rfl, -⟩ := h
          exact hinv

/-- A successful `Conjunction::register_input_module` preserves the count
consistency invariant. -/
theorem conjInv_register (c : Conjunction) (m : Nat) (c' : Conjunction)
    (hinv : conjInv c) (h : c.register_input_module m = some c') : conjInv c' := by
  unfold Conjunction.register_input_module at h
  cases hm : c.memory.get? m with
  | none => rw [hm] at h; simp at h
  | some o =>
    cases o with
    | some q => rw [hm] at h; simp at h
    | none =>
      rw [hm] at h
      simp only [Option.some.injEq] at h
      subst h
      unfold conjInv at hinv ⊢
      have hb := countP_set_balance (fun x => x = some Pulse.High) c.memory m
        none (some Pulse.Low) hm
      simp only [countHigh] at *
      simp at hb
      omega

/-- A fresh conjunction's memory contains no High slot. -/
theorem countHigh_replicate_none (n : Nat) : countHigh (List.replicate n none) = 0 := by
  unfold countHigh
  rw [List.countP_eq_zero]
  intro a ha
  rw [List.eq_of_mem_replicate ha]
  simp

/-- C8: every Conjunction module satisfies the invariant `num_high` =
number of memory slots remembered High: it holds after construction
(`Conjunction::new` registers nothing and counts zero) and is preserved by
every successful `register_input_module` and `receive_pulse` call. -/
theorem c8_conjunction_count_invariant :
    (∀ id outs n, conjInv (Conjunction.new id outs n)) ∧
    (∀ c m c', conjInv c → c.register_input_module m = some c' → conjInv c') ∧
    (∀ c i p c' evs, conjInv c → c.receive_pulse i p = some (c', evs) → conjInv c') := by
  refine ⟨?_, ?_, ?_⟩
  · intro id outs n
    unfold conjInv Conjunction.new
    simpa using (countHigh_replicate_none n).symm
  · intro c m c' hinv h
    exact conjInv_register c m c' hinv h
  · intro c i p c' evs hinv h
    exact conjInv_receive c i p c' evs hinv h

/-- Witness for C8 at concrete inputs: a fresh conjunction, one registration
and one pulse reception, each checked to preserve the invariant. -/
theorem c8_witness :
    conjInv (Conjunction.new 7 [1] 3) ∧
    conjInv (⟨7, [0], [1], [some Pulse.Low, none], 0, 1⟩ : Conjunction) ∧
    conjInv (⟨7, [0], [1], [some Pulse.High, none], 1, 1⟩ : Conjunction) :=
  ⟨c8_conjunction_count_invariant.1 7 [1] 3,
   c8_conjunction_count_invariant.2.1 ⟨7, [], [1], [none, none], 0, 0⟩ 0
     ⟨7, [0], [1], [some Pulse.Low, none], 0, 1⟩ (by decide) (by decide),
   c8_conjunction_count_invariant.2.2 ⟨7, [0], [1], [some Pulse.Low, none], 0, 1⟩ 0
     Pulse.High ⟨7, [0], [1], [some Pulse.High, none], 1, 1⟩
     [⟨7, 1, Pulse.Low⟩] (by decide) (by decide)⟩

/-- Overwriting a registered slot with a registered value keeps the number
of registered slots unchanged. -/
theorem countSome_set_some (mem : List (Option Pulse)) (i : Nat) (q x : Pulse)
    (hm : mem.get? i = some (some q)) :
    countSome (mem.set i (some x)) = countSome mem := by
  have hb := countP_set_balance (fun v => v.isSome) mem i (some q) (some x) hm
  unfold countSome
  simp at hb
  omega

/-- The conjunction's emitted pulse is Low exactly when the High count
saturates the registered count, equivalently (under the invariants) when
every registered slot is remembered High. -/
theorem conj_emit_characterization (c' : Conjunction) (hinv' : conjInv c')
    (hreg' : c'.total_registered = countSome c'.memory) :
    ((if c'.num_high = c'.total_registered then Pulse.Low else Pulse.High) = Pulse.Low
        ↔ c'.num_high = c'.total_registered) ∧
    ((if c'.num_high = c'.total_registered then Pulse.Low else Pulse.High) = Pulse.Low
        ↔ ∀ x ∈ c'.memory, x.isSome → x = some Pulse.High) := by
  have h2 : (c'.num_high = c'.total_registered)
      ↔ ∀ x ∈ c'.memory, x.isSome → x = some Pulse.High := by
    rw [hinv', hreg']
    exact countHigh_eq_countSome_iff c'.memory
  constructor
  · by_cases h : c'.num_high = c'.total_registered <;> simp [h]
  · rw [← h2]
    by_cases h : c'.num_high = c'.total_registered <;> simp [h]

/-- C2: when a Conjunction receives a pulse from a registered input, it first
updates the remembered pulse for that sender (adjusting `num_high` only on
Low→High and High→Low transitions), then enqueues one event per output whose
pulse is Low iff the remembered-high count equals the registered input count
at the moment of emission — equivalently, under the count invariant, iff all
registered inputs are currently remembered High. -/
theorem c2_conjunction_receive_contract (c : Conjunction) (i : Nat) (p remembered : Pulse)
    (hmem : c.memory.get? i = some (some remembered))
    (hinv : conjInv c)
    (hreg : c.total_registered = countSome c.memory) :
    ∃ c' emitted,
      c.receive_pulse i p = some (c', c'.outputs.map fun t => ⟨c'.id, t, emitted⟩) ∧
      c'.memory = c.memory.set i (some p) ∧
      c'.outputs = c.outputs ∧
      c'.total_registered = c.total_registered ∧
      c'.num_high = (if remembered = Pulse.Low ∧ p = Pulse.High then c.num_high + 1
        else if remembered = Pulse.High ∧ p = Pulse.Low then c.num_high - 1
        else c.num_high) ∧
      (emitted = Pulse.Low ↔ c'.num_high = c'.total_registered) ∧
      (emitted = Pulse.Low ↔ ∀ x ∈ c'.memory, x.isSome → x = some Pulse.High) := by
  cases p with
  | High =>
    cases remembered with
    | High =>
      refine ⟨c, if c.num_high = c.total_registered then Pulse.Low else Pulse.High,
        ?_, ?_, rfl, rfl, ?_, ?_, ?_⟩
      · unfold Conjunction.receive_pulse
        rw [hmem]
      · exact (set_get?_self c.memory i (some Pulse.High) hmem).symm
      · simp
      · exact (conj_emit_characterization c hinv hreg).1
      · exact (conj_emit_characterization c hinv hreg).2
    | Low =>
      set c' : Conjunction := ({ c with num_high := c.num_high + 1, memory := c.memory.set i (some Pulse.High) } : Conjunction) with hc'
      have hrec : c.receive_pulse i Pulse.High =
          some (c', c'.outputs.map fun t =>
            ⟨c'.id, t, if c'.num_high = c'.total_registered then Pulse.Low else Pulse.High⟩) := by
        unfold Conjunction.receive_pulse
        rw [hmem]
      have hinv' : conjInv c' :=
        conjInv_receive c i Pulse.High c' _ hinv hrec
      have hreg' : c'.total_registered = countSome c'.memory := by
        rw [hc']
        simpa [countSome_set_some c.memory i Pulse.Low Pulse.High hmem] using hreg
      refine ⟨c', if c'.num_high = c'.total_registered then Pulse.Low else Pulse.High,
        hrec, rfl, rfl, rfl, ?_, ?_, ?_⟩
      · simp [hc']
      · exact (conj_emit_characterization c' hinv' hreg').1
      · exact (conj_emit_characterization c' hinv' hreg').2
  | Low =>
    cases remembered with
    | High =>
      set c' : Conjunction := ({ c with num_high := c.num_high - 1, memory := c.memory.set i (some Pulse.Low) } : Conjunction) with hc'
      have hrec : c.receive_pulse i Pulse.Low =
          some (c', c'.outputs.map fun t =>
            ⟨c'.id, t, if c'.num_high = c'.total_registered then Pulse.Low else Pulse.High⟩) := by
        unfold Conjunction.receive_pulse
        rw [hmem]
      have hinv' : conjInv c' :=
        conjInv_receive c i Pulse.Low c' _ hinv hrec
      have hreg' : c'.total_registered = countSome c'.memory := by
        rw [hc']
        simpa [countSome_set_some c.memory i Pulse.High Pulse.Low hmem] using hreg
      refine ⟨c', if c'.num_high = c'.total_registered then Pulse.Low else Pulse.High,
        hrec, rfl, rfl, rfl, ?_, ?_, ?_⟩
      · simp [hc']
      · exact (conj_emit_characterization c' hinv' hreg').1
      · exact (conj_emit_characterization c' hinv' hreg').2
    | Low =>
      refine ⟨c, if c.num_high = c.total_registered then Pulse.Low else Pulse.High,
        ?_, ?_, rfl, rfl, ?_, ?_, ?_⟩
      · unfold Conjunction.receive_pulse
        rw [hmem]
      · exact (set_get?_self c.memory i (some Pulse.Low) hmem).symm
      · simp
      · exact (conj_emit_characterization c hinv hreg).1
      · exact (conj_emit_characterization c hinv hreg).2

/-- Witness for C2 at a concrete conjunction with two registered inputs, one
of them already High: receiving High from the other fills the memory and the
contract applies. -/
theorem c2_witness :
    ((⟨9, [0, 1], [5], [some Pulse.Low, some Pulse.High], 1, 2⟩ :
        Conjunction).memory.get? 0 = some (some Pulse.Low) ∧
      conjInv ⟨9, [0, 1], [5], [some Pulse.Low, some Pulse.High], 1, 2⟩ ∧
      (2 : Nat) = countSome [some Pulse.Low, some Pulse.High]) ∧
    ∃ c' emitted,
      (⟨9, [0, 1], [5], [some Pulse.Low, some Pulse.High], 1, 2⟩ :
          Conjunction).receive_pulse 0 Pulse.High =
        some (c', c'.outputs.map fun t => ⟨c'.id, t, emitted⟩) ∧
      c'.memory = [some Pulse.Low, some Pulse.High].set 0 (some Pulse.High) ∧
      c'.outputs = [5] ∧
      c'.total_registered = 2 ∧
      c'.num_high = (if Pulse.Low = Pulse.Low ∧ Pulse.High = Pulse.High then 1 + 1
        else if Pulse.Low = Pulse.High ∧ Pulse.High = Pulse.Low then 1 - 1
        else 1) ∧
      (emitted = Pulse.Low ↔ c'.num_high = c'.total_registered) ∧
      (emitted = Pulse.Low ↔ ∀ x ∈ c'.memory, x.isSome → x = some Pulse.High) :=
  ⟨⟨by decide, by decide, by decide⟩,
   c2_conjunction_receive_contract ⟨9, [0, 1], [5], [some Pulse.Low, some Pulse.High], 1, 2⟩
     0 Pulse.High Pulse.Low (by decide) (by decide) (by decide)⟩

/-- C9: the two scenario graphs reproduce the expected results: bulk mode
(`part_1`, 1000 presses) gives 32000000 on Scenario A and 11687500 on
Scenario B, and the analyzer's target-mode query (`part_2`) for the sink
fed by `output` receiving Low gives press index 1 on Scenario B. -/
theorem c9_scenario_results :
    part_1 100 scenarioA = some 32000000 ∧
    part_1 100 scenarioB = some 11687500 ∧
    part_2 20 scenarioB = some 1 :=
  ⟨by decide, by decide, by decide⟩

/-- C1 (failing evaluation): `merge_periods` applied to a period-1 record
holding a Low pulse at offset 0 and an entry-less period-2 record.  The
claimed behaviour requires the merged period-2 record to contain the source
entry recurring at offsets 0 and 0 + 1·1 = 1; the code instead duplicates the
entry at offset 0 (`Vec::repeat` concatenates copies without shifting
offsets), so no entry at offset 1 exists at all. -/
theorem c1_merge_periods_failing_input :
    merge_periods [([⟨0, Pulse.Low⟩], 1), ([], 2)] =
      some ([⟨0, Pulse.Low⟩, ⟨0, Pulse.Low⟩], 2) ∧
    ∀ e ∈ [PulseAtTime.mk 0 Pulse.Low, PulseAtTime.mk 0 Pulse.Low], e.time ≠ 1 :=
  ⟨by decide, by decide⟩

/-- C6: whenever the analyzer is invoked for a module whose name is already
on the active recursion path, it halts immediately with a cycle diagnostic
identifying the offending module (the source panics with
`"Already visited module {name}!!!"`). -/
theorem c6_cycle_reentry_diagnostic (fuel : Nat) (ms : List Module) (m : Module)
    (stack : List String) (h : m.name ∈ stack) :
    getPresses fuel ms m stack = Except.error (AnalyzeErr.cycle m.name) := by
  unfold getPresses
  rw [if_pos h]

/-- A successful `split_once` decomposes the list around the separator. -/
theorem splitOnceL_eq_append (sep : List Char) :
    ∀ (l pre post : List Char), splitOnceL sep l = some (pre, post) →
      l = pre ++ sep ++ post
  | [], pre, post, h => by simp [splitOnceL] at h
  | c :: rest, pre, post, h => by
    unfold splitOnceL at h
    by_cases hp : sep.isPrefixOf (c :: rest)
    · rw [if_pos hp] at h
      simp only [Option.some.injEq, Prod.mk.injEq] at h
      obtain ⟨rfl, rfl⟩ := h
      rw [List.isPrefixOf_iff_prefix] at hp
      obtain ⟨t, ht⟩ := hp
      rw [← ht]
      simp
    · rw [if_neg hp] at h
      cases hr : splitOnceL sep rest with
      | none => rw [hr] at h; simp at h
      | some pr =>
        rw [hr] at h
        simp only [Option.map_some', Option.some.injEq, Prod.mk.injEq] at h
        obtain ⟨rfl, rfl⟩ := h
        have := splitOnceL_eq_append sep rest pr.1 pr.2 hr
        simp [this]

/-- `split_once` succeeds on any list containing the (non-empty) separator. -/
theorem splitOnceL_append_isSome (sep : List Char) (hne : sep ≠ []) :
    ∀ (a b : List Char), (splitOnceL sep (a ++ sep ++ b)).isSome = true
  | [], b => by
    cases sep with
    | nil => exact absurd rfl hne
    | cons s ss =>
      simp only [List.nil_append, List.cons_append]
      unfold splitOnceL
      rw [if_pos]
      · simp
      · rw [List.isPrefixOf_iff_prefix]
        exact ⟨b, by simp⟩
  | c :: t, b => by
    simp only [List.cons_append]
    unfold splitOnceL
    by_cases hp : sep.isPrefixOf (c :: (t ++ sep ++ b))
    · rw [if_pos hp]
      simp
    · rw [if_neg hp]
      have := splitOnceL_append_isSome sep hne t b
      simp only [List.append_assoc] at this ⊢
      cases hr : splitOnceL sep (t ++ (sep ++ b)) with
      | none => rw [hr] at this; simp at this
      | some pr => simp

/-- Removing marker characters never removes the ` -> ` separator. -/
theorem extract_isSome_of_split (line : String) (pre post : List Char)
    (h : splitOnceL arrowSep line.data = some (pre, post)) :
    (extract_module_name_from_line line).isSome = true := by
  unfold extract_module_name_from_line
  have hd := splitOnceL_eq_append arrowSep line.data pre post h
  have hrm : removeMarkers line.data =
      removeMarkers pre ++ arrowSep ++ removeMarkers post := by
    rw [hd]
    unfold removeMarkers
    simp only [List.filter_append, List.append_cancel_right_eq, List.append_cancel_left_eq]
    decide
  rw [hrm]
  have := splitOnceL_append_isSome arrowSep (by decide) (removeMarkers pre) (removeMarkers post)
  cases hr : splitOnceL arrowSep (removeMarkers pre ++ arrowSep ++ removeMarkers post) with
  | none => rw [hr] at this; simp at this
  | some pr => simp

/-- Elements produced by a successful `mapMex` all come from a successful
application of the mapped function. -/
theorem mapMex_ok_mem {α β ε : Type} (g : α → Except ε β) :
    ∀ (l : List α) (out : List β), mapMex g l = Except.ok out →
      ∀ y ∈ out, ∃ x ∈ l, g x = Except.ok y
  | [], out, h => by
    unfold mapMex at h
    simp only [Except.ok.injEq] at h
    subst h
    simp
  | x :: xs, out, h => by
    unfold mapMex at h
    cases hg : g x with
    | error e => rw [hg] at h; simp at h
    | ok y0 =>
      rw [hg] at h
      cases hr : mapMex g xs with
      | error e => rw [hr] at h; simp [Except.map] at h
      | ok ys =>
        rw [hr] at h
        simp only [Except.map, Except.ok.injEq] at h
        subst h
        intro y hy
        rcases List.mem_cons.mp hy with rfl | hy
        · exact ⟨x, List.mem_cons_self x xs, hg⟩
        · obtain ⟨x', hx', hgx'⟩ := mapMex_ok_mem g xs ys hr y hy
          exact ⟨x', List.mem_cons_of_mem x hx', hgx'⟩

/-- The alternation pass keeps the length. -/
theorem alternateFromHigh_length (l : List PulseAtTime) :
    (alternateFromHigh l).length = l.length := by
  simp [alternateFromHigh]

/-- The alternation pass writes High at even positions and Low at odd ones. -/
theorem alternateFromHigh_get (l : List PulseAtTime) (k : Nat)
    (hk : k < (alternateFromHigh l).length) :
    ((alternateFromHigh l).get ⟨k, hk⟩).pulse
      = if k % 2 = 0 then Pulse.High else Pulse.Low := by
  have hk' : k < l.enum.length := by
    simpa [alternateFromHigh] using hk
  unfold alternateFromHigh
  rw [List.get_eq_getElem]
  simp only [List.getElem_map]
  simp [List.enum, List.getElem_enumFrom]

/-- The odd-length compensation always produces an even length. -/
theorem doubleIfOdd_length_even (l : List PulseAtTime) :
    (doubleIfOdd l).length % 2 = 0 := by
  unfold doubleIfOdd
  by_cases h : l.length % 2 = 1
  · rw [if_pos h]
    simp only [List.length_append]
    omega
  · rw [if_neg h]
    omega

/-- An even-length alternating list keeps alternating across concatenated
repetitions. -/
theorem alternate_append_alternates (out : List PulseAtTime)
    (heven : out.length % 2 = 0)
    (halt : ∀ k (hk : k < out.length),
      (out.get ⟨k, hk⟩).pulse = if k % 2 = 0 then Pulse.High else Pulse.Low) :
    ∀ k (hk : k < (out ++ out).length),
      ((out ++ out).get ⟨k, hk⟩).pulse = if k % 2 = 0 then Pulse.High else Pulse.Low := by
  intro k hk
  rw [List.get_eq_getElem]
  by_cases h : k < out.length
  · rw [List.getElem_append_left h]
    have := halt k h
    rw [List.get_eq_getElem] at this
    exact this
  · have hle : out.length ≤ k := Nat.le_of_not_lt h
    have hk2 : k - out.length < out.length := by
      have := List.length_append out out ▸ hk
      omega
    rw [List.getElem_append_right hle]
    have := halt (k - out.length) hk2
    rw [List.get_eq_getElem] at this
    rw [this]
    have hmod : (k - out.length) % 2 = k % 2 := by omega
    rw [hmod]

/-- C4: a FlipFlop's analyzed schedule is built by filtering every parent's
schedule to its Low entries, merging through `merge_periods` (so the returned
period is the lcm of the parents' periods), doubling the merged list when its
length is odd, and overwriting pulses with the alternation High, Low, ... in
list order; the result has even length and alternates, and a concatenated
repeat of it continues the alternation correctly. -/
theorem c4_flipflop_schedule (fuel : Nat) (ms : List Module) (nm : String)
    (f : FlipFlop) (cnt : PulseCounter) (stack : List String)
    (out : List PulseAtTime) (P : Nat)
    (hok : getPresses (fuel + 1) ms ⟨nm, ModuleVariant.flipflop f, cnt⟩ stack
      = Except.ok (out, P)) :
    ∃ input_data pulses,
      mapMex (fun i => do
          let mi ← moduleAt ms i
          let r ← getPresses fuel ms mi (stack ++ [nm])
          pure (filterLow r.1, r.2)) f.inputs = Except.ok input_data ∧
      (∀ pp ∈ input_data, ∀ e ∈ pp.1, e.pulse = Pulse.Low) ∧
      merge_periods input_data = some (pulses, P) ∧
      reduceLcm (input_data.map (·.2)) = some P ∧
      out = alternateFromHigh (doubleIfOdd pulses) ∧
      out.length % 2 = 0 ∧
      (∀ k (hk : k < out.length), (out.get ⟨k, hk⟩).pulse
          = if k % 2 = 0 then Pulse.High else Pulse.Low) ∧
      (∀ k (hk : k < (out ++ out).length), ((out ++ out).get ⟨k, hk⟩).pulse
          = if k % 2 = 0 then Pulse.High else Pulse.Low) := by
  have hname : (⟨nm, ModuleVariant.flipflop f, cnt⟩ : Module).name = nm := rfl
  unfold getPresses at hok
  rw [hname] at hok
  by_cases hstack : nm ∈ stack
  · rw [if_pos hstack] at hok
    simp at hok
  · rw [if_neg hstack] at hok
    replace hok : (do
        let input_data ← mapMex (fun i => do
          let mi ← moduleAt ms i
          let r ← getPresses fuel ms mi (stack ++ [nm])
          pure (filterLow r.1, r.2)) f.inputs
        match merge_periods input_data with
        | none => Except.error AnalyzeErr.emptyInputs
        | some (pulses, period) =>
          Except.ok (alternateFromHigh (doubleIfOdd pulses), period)
        : Except AnalyzeErr (List PulseAtTime × Nat)) = Except.ok (out, P) := hok
    cases hmap : mapMex (fun i => do
        let mi ← moduleAt ms i
        let r ← getPresses fuel ms mi (stack ++ [nm])
        pure (filterLow r.1, r.2)) f.inputs with
    | error e =>
      rw [hmap] at hok
      simp [Bind.bind, Except.bind] at hok
    | ok input_data =>
      rw [hmap] at hok
      simp only [Bind.bind, Except.bind] at hok
      cases hmerge : merge_periods input_data with
      | none => rw [hmerge] at hok; simp at hok
      | some pp =>
        rw [hmerge] at hok
        obtain ⟨pulses, period⟩ := pp
        simp only [Except.ok.injEq, Prod.mk.injEq] at hok
        obtain ⟨hout, hP⟩ := hok
        subst hP
        subst hout
        have heven : (alternateFromHigh (doubleIfOdd pulses)).length % 2 = 0 := by
          rw [alternateFromHigh_length]
          exact doubleIfOdd_length_even pulses
        have halt : ∀ k (hk : k < (alternateFromHigh (doubleIfOdd pulses)).length),
            ((alternateFromHigh (doubleIfOdd pulses)).get ⟨k, hk⟩).pulse
              = if k % 2 = 0 then Pulse.High else Pulse.Low := by
          intro k hk
          exact alternateFromHigh_get (doubleIfOdd pulses) k hk
        refine ⟨input_data, pulses, rfl, ?_, hmerge, ?_, rfl, heven, halt,
          alternate_append_alternates _ heven halt⟩
        · intro pp hpp e he
          obtain ⟨i, -, hg⟩ := mapMex_ok_mem _ f.inputs input_data hmap pp hpp
          cases hmi : moduleAt ms i with
          | error e' => rw [hmi] at hg; simp [Bind.bind, Except.bind] at hg
          | ok mi =>
            rw [hmi] at hg
            simp only [Bind.bind, Except.bind] at hg
            cases hgp : getPresses fuel ms mi (stack ++ [nm]) with
            | error e' => rw [hgp] at hg; simp at hg
            | ok r =>
              rw [hgp] at hg
              simp only [Pure.pure, Except.pure, Except.ok.injEq] at hg
              subst hg
              simp only [filterLow, List.mem_filter] at he
              exact of_decide_eq_true he.2
        · unfold merge_periods at hmerge
          cases hr : reduceLcm (input_data.map (·.2)) with
          | none => rw [hr] at hmerge; simp at hmerge
          | some fp =>
            rw [hr] at hmerge
            simp only [Option.some.injEq, Prod.mk.injEq] at hmerge
            rw [hmerge.2]

/-- Does index `o` hold a Conjunction module? -/
def conjTarget (ms : List Module) (o : Nat) : Bool :=
  match ms.get? o with
  | some m =>
    match m.variant with
    | ModuleVariant.conjunction _ => true
    | _ => false
  | none => false

/-- Well-formedness of one registration pair (input id, output id): the
target exists, and if it is a Conjunction its memory slot for the input id
is present and still unset (the post-construction state). -/
def pairOk (ms : List Module) (p : Nat × Nat) : Bool :=
  match ms.get? p.2 with
  | some m =>
    match m.variant with
    | ModuleVariant.conjunction c => c.memory.get? p.1 = some none
    | _ => true
  | none => false

/-- What a successful `Conjunction::register_input_module` did: the slot was
unset and is now Low. -/
theorem conj_register_memory (c : Conjunction) (j : Nat) (c' : Conjunction)
    (h : c.register_input_module j = some c') :
    c.memory.get? j = some none ∧ c'.memory = c.memory.set j (some Pulse.Low) := by
  unfold Conjunction.register_input_module at h
  cases hm : c.memory.get? j with
  | none => rw [hm] at h; simp at h
  | some o =>
    cases o with
    | some q => rw [hm] at h; simp at h
    | none =>
      rw [hm] at h
      simp only [Option.some.injEq] at h
      subst h
      exact ⟨rfl, rfl⟩

/-- `Module::register_input_module` acts variant-wise. -/
theorem register_variant_cases (m : Module) (j : Nat) (m' : Module)
    (h : m.register_input_module j = some m') :
    m'.name = m.name ∧
    (∀ b, m.variant = ModuleVariant.broadcaster b →
        m'.variant = ModuleVariant.broadcaster (b.register_input_module j)) ∧
    (∀ f, m.variant = ModuleVariant.flipflop f →
        m'.variant = ModuleVariant.flipflop (f.register_input_module j)) ∧
    (∀ c, m.variant = ModuleVariant.conjunction c →
        ∃ c', c.register_input_module j = some c' ∧
          m'.variant = ModuleVariant.conjunction c') := by
  unfold Module.register_input_module at h
  cases hv : m.variant with
  | broadcaster b =>
    rw [hv] at h
    simp only [Option.some.injEq] at h
    subst h
    refine ⟨rfl, ?_, ?_, ?_⟩
    · intro x hx
      cases hx
      rfl
    · intro x hx
      cases hx
    · intro x hx
      cases hx
  | flipflop f =>
    rw [hv] at h
    simp only [Option.some.injEq] at h
    subst h
    refine ⟨rfl, ?_, ?_, ?_⟩
    · intro x hx
      cases hx
    · intro x hx
      cases hx
      rfl
    · intro x hx
      cases hx
  | conjunction c =>
    rw [hv] at h
    dsimp only at h
    cases hr : c.register_input_module j with
    | none => rw [hr] at h; simp at h
    | some c' =>
      rw [hr] at h
      simp only [Option.map_some', Option.some.injEq] at h
      subst h
      refine ⟨rfl, ?_, ?_, ?_⟩
      · intro x hx
        cases hx
      · intro x hx
        cases hx
      · intro x hx
        cases hx
        exact ⟨c', hr, rfl⟩

/-- A successful registration step: lengths and other slots are untouched,
and the target module evolves by `register_input_module`. -/
theorem registerAt_some_shape (ms : List Module) (j p : Nat) (ms₂ : List Module)
    (h : registerAt ms j p = some ms₂) :
    ms₂.length = ms.length ∧
    (∀ t, t ≠ p → ms₂.get? t = ms.get? t) ∧
    ∃ mp m', ms.get? p = some mp ∧ ms₂.get? p = some m' ∧
      mp.register_input_module j = some m' := by
  unfold registerAt at h
  cases hm : ms.get? p with
  | none => rw [hm] at h; simp at h
  | some mp =>
    rw [hm] at h
    dsimp only at h
    cases hr : mp.register_input_module j with
    | none => rw [hr] at h; simp at h
    | some m' =>
      rw [hr] at h
      simp only [Option.map_some', Option.some.injEq] at h
      subst h
      have hp : p < ms.length := by
        by_contra hlt
        rw [List.get?_eq_getElem?, List.getElem?_eq_none (Nat.le_of_not_lt hlt)] at hm
        cases hm
      refine ⟨by simp, ?_, mp, m', rfl, ?_, hr⟩
      · intro t ht
        rw [List.get?_eq_getElem?, List.get?_eq_getElem?, List.getElem?_set_ne (fun he => ht he.symm)]
      · rw [List.get?_eq_getElem?, List.getElem?_set_self hp]

/-- Registration preserves which indices hold Conjunctions. -/
theorem registerAt_conjTarget (ms : List Module) (j p : Nat) (ms₂ : List Module)
    (h : registerAt ms j p = some ms₂) (t : Nat) :
    conjTarget ms₂ t = conjTarget ms t := by
  obtain ⟨-, hother, mp, m', hmp, hm', hreg⟩ := registerAt_some_shape ms j p ms₂ h
  unfold conjTarget
  by_cases ht : t = p
  · subst ht
    rw [hmp, hm']
    dsimp only
    obtain ⟨-, hb, hf, hc⟩ := register_variant_cases mp j m' hreg
    cases hv : mp.variant with
    | broadcaster b => rw [hb b hv]
    | flipflop f => rw [hf f hv]
    | conjunction c =>
      obtain ⟨c', -, hv'⟩ := hc c hv
      rw [hv']
  · rw [hother t ht]

/-- Registration aborts whenever a pair targets a Conjunction whose memory
slot for that input id is already set. -/
theorem regAll_none_of_set_slot (i o : Nat) :
    ∀ (ms : List Module) (pairs : List (Nat × Nat)),
      (∃ m c q, ms.get? o = some m ∧ m.variant = ModuleVariant.conjunction c ∧
        c.memory.get? i = some (some q)) →
      (i, o) ∈ pairs → regAll ms pairs = none
  | ms, [], _, hmem => absurd hmem (List.not_mem_nil _)
  | ms, (j, p) :: rest, hconj, hmem => by
    obtain ⟨m, c, q, hm, hvar, hq⟩ := hconj
    unfold regAll
    cases hreg : registerAt ms j p with
    | none => simp
    | some ms₂ =>
      rw [Option.some_bind]
      by_cases hip : (j, p) = (i, o)
      · exfalso
        obtain ⟨rfl, rfl⟩ := Prod.mk.injEq j p i o ▸ hip
        unfold registerAt at hreg
        rw [hm] at hreg
        dsimp only at hreg
        unfold Module.register_input_module at hreg
        rw [hvar] at hreg
        dsimp only at hreg
        unfold Conjunction.register_input_module at hreg
        rw [hq] at hreg
        simp at hreg
      · have hmem' : (i, o) ∈ rest := by
          rcases List.mem_cons.mp hmem with h | h
          · exact absurd h.symm hip
          · exact h
        obtain ⟨-, hother, mp, m', hmp, hm', hregm⟩ := registerAt_some_shape ms j p ms₂ hreg
        have hconj₂ : ∃ m2 c2 q2, ms₂.get? o = some m2 ∧
            m2.variant = ModuleVariant.conjunction c2 ∧
            c2.memory.get? i = some (some q2) := by
          by_cases hpo : p = o
          · subst hpo
            obtain rfl : mp = m := Option.some.inj (hmp.symm.trans hm)
            obtain ⟨-, -, -, hcs⟩ := register_variant_cases mp j m' hregm
            obtain ⟨c', hcr, hv'⟩ := hcs c hvar
            obtain ⟨hnone, hcm⟩ := conj_register_memory c j c' hcr
            have hji : j ≠ i := fun he => hip (by rw [he])
            refine ⟨m', c', q, hm', hv', ?_⟩
            rw [hcm, List.get?_eq_getElem?, List.getElem?_set_ne hji, ← List.get?_eq_getElem?]
            exact hq
          · exact ⟨m, c, q, (hother o fun he => hpo he.symm) ▸ hm, hvar, hq⟩
        exact regAll_none_of_set_slot i o ms₂ rest hconj₂ hmem'

/-- A successful registration run implies no Conjunction-targeted pair is
duplicated. -/
theorem regAll_some_nodup :
    ∀ (ms : List Module) (pairs : List (Nat × Nat)) (ms' : List Module),
      regAll ms pairs = some ms' →
      (pairs.filter fun p => conjTarget ms p.2).Nodup
  | _, [], _, _ => by simp
  | ms, (j, p) :: rest, ms', h => by
    unfold regAll at h
    cases hreg : registerAt ms j p with
    | none => rw [hreg] at h; simp at h
    | some ms₂ =>
      rw [hreg, Option.some_bind] at h
      have hct := registerAt_conjTarget ms j p ms₂ hreg
      have ihnd := regAll_some_nodup ms₂ rest ms' h
      have hfc : rest.filter (fun r => conjTarget ms₂ r.2)
          = rest.filter fun r => conjTarget ms r.2 :=
        List.filter_congr fun x _ => by rw [hct x.2]
      rw [hfc] at ihnd
      cases hfilter : conjTarget ms p with
      | false =>
        rw [List.filter_cons_of_neg (by simp [hfilter])]
        exact ihnd
      | true =>
        rw [List.filter_cons_of_pos (by simp [hfilter])]
        rw [List.nodup_cons]
        refine ⟨?_, ihnd⟩
        intro hmemf
        have hmem := (List.mem_filter.mp hmemf).1
        obtain ⟨-, -, mp, m', hmp, hm', hregm⟩ := registerAt_some_shape ms j p ms₂ hreg
        have hmpc : ∃ c, mp.variant = ModuleVariant.conjunction c := by
          unfold conjTarget at hfilter
          rw [hmp] at hfilter
          dsimp only at hfilter
          cases hv : mp.variant with
          | conjunction c => exact ⟨c, rfl⟩
          | broadcaster b => rw [hv] at hfilter; simp at hfilter
          | flipflop f => rw [hv] at hfilter; simp at hfilter
        obtain ⟨c, hv⟩ := hmpc
        obtain ⟨-, -, -, hcs⟩ := register_variant_cases mp j m' hregm
        obtain ⟨c', hcr, hv'⟩ := hcs c hv
        obtain ⟨hnone, hcm⟩ := conj_register_memory c j c' hcr
        have hq : c'.memory.get? j = some (some Pulse.Low) := by
          have hj : j < c.memory.length := by
            by_contra hlt
            rw [List.get?_eq_getElem?, List.getElem?_eq_none (Nat.le_of_not_lt hlt)] at hnone
            cases hnone
          rw [hcm, List.get?_eq_getElem?, List.getElem?_set_self hj]
        have hnone₂ := regAll_none_of_set_slot j p ms₂ rest
          ⟨m', c', Pulse.Low, hm', hv', hq⟩ hmem
        rw [hnone₂] at h
        cases h

/-- Well-formed non-duplicated registration pairs always register cleanly. -/
theorem regAll_some_of_nodup :
    ∀ (ms : List Module) (pairs : List (Nat × Nat)),
      (∀ p ∈ pairs, pairOk ms p = true) →
      (pairs.filter fun p => conjTarget ms p.2).Nodup →
      ∃ ms', regAll ms pairs = some ms'
  | ms, [], _, _ => ⟨ms, rfl⟩
  | ms, (j, p) :: rest, hok, hnd => by
    have hokh := hok (j, p) (List.mem_cons_self _ _)
    unfold pairOk at hokh
    cases hm : ms.get? p with
    | none => rw [hm] at hokh; simp at hokh
    | some mp =>
      rw [hm] at hokh
      dsimp only at hokh
      have hsome : ∃ ms₂, registerAt ms j p = some ms₂ := by
        unfold registerAt
        rw [hm]
        dsimp only
        unfold Module.register_input_module
        cases hv : mp.variant with
        | broadcaster b => exact ⟨_, rfl⟩
        | flipflop f => exact ⟨_, rfl⟩
        | conjunction c =>
          rw [hv] at hokh
          dsimp only at hokh
          have hmem : c.memory.get? j = some none := of_decide_eq_true hokh
          dsimp only
          unfold Conjunction.register_input_module
          rw [hmem]
          exact ⟨_, rfl⟩
      obtain ⟨ms₂, hreg⟩ := hsome
      have hct := registerAt_conjTarget ms j p ms₂ hreg
      obtain ⟨-, hother, mp', m', hmp', hm', hregm⟩ := registerAt_some_shape ms j p ms₂ hreg
      obtain rfl : mp = mp' := Option.some.inj (hm.symm.trans hmp')
      have hok₂ : ∀ r ∈ rest, pairOk ms₂ r = true := by
        intro r hr
        have hokq := hok r (List.mem_cons_of_mem _ hr)
        unfold pairOk at hokq ⊢
        by_cases hqp : r.2 = p
        · rw [hqp] at hokq ⊢
          rw [hm] at hokq
          rw [hm']
          dsimp only at hokq ⊢
          obtain ⟨-, hb, hf, hc⟩ := register_variant_cases mp j m' hregm
          cases hv : mp.variant with
          | broadcaster b => rw [hb b hv]
          | flipflop f => rw [hf f hv]
          | conjunction c =>
            rw [hv] at hokq
            dsimp only at hokq
            obtain ⟨c', hcr, hv'⟩ := hc c hv
            rw [hv']
            dsimp only
            obtain ⟨hnone, hcm⟩ := conj_register_memory c j c' hcr
            have hq1j : r.1 ≠ j := by
              intro he
              have hqpair : r = (j, p) := by
                obtain ⟨r1, r2⟩ := r
                simp only at he hqp
                rw [he, hqp]
              have hctp' : conjTarget ms p = true := by
                unfold conjTarget
                rw [hm]
                dsimp only
                rw [hv]
              have hinf : (j, p) ∈ rest.filter fun x => conjTarget ms x.2 :=
                List.mem_filter.mpr ⟨hqpair ▸ hr, by simpa using hctp'⟩
              rw [List.filter_cons_of_pos (by simpa using hctp'), List.nodup_cons] at hnd
              exact hnd.1 hinf
            rw [hcm]
            simp only [List.get?_eq_getElem?, List.getElem?_set_ne (fun he => hq1j he.symm)]
            simp only [List.get?_eq_getElem?] at hokq
            exact hokq
        · rw [hother r.2 hqp]
          exact hokq
      have hnd₂ : (rest.filter fun r => conjTarget ms₂ r.2).Nodup := by
        have hfc : rest.filter (fun r => conjTarget ms₂ r.2)
            = rest.filter fun r => conjTarget ms r.2 :=
          List.filter_congr fun x _ => by rw [hct x.2]
        rw [hfc]
        cases hfilter : conjTarget ms p with
        | true =>
          rw [List.filter_cons_of_pos (by simp [hfilter]), List.nodup_cons] at hnd
          exact hnd.2
        | false =>
          rw [List.filter_cons_of_neg (by simp [hfilter])] at hnd
          exact hnd
      obtain ⟨msf, hfin⟩ := regAll_some_of_nodup ms₂ rest hok₂ hnd₂
      refine ⟨msf, ?_⟩
      unfold regAll
      rw [hreg]
      exact hfin

/-- C10: under well-formed post-construction pairs (targets exist;
Conjunction targets have a present, still-unset memory slot for the input),
the registration loop succeeds exactly when no pair targeting a Conjunction
occurs twice: a duplicated Conjunction edge makes `register_input_module`'s
assertion fail and `set_up_modules` abort, and without duplicates the
assertion never fires. -/
theorem c10_conjunction_registered_once (ms : List Module) (pairs : List (Nat × Nat))
    (hok : ∀ p ∈ pairs, pairOk ms p = true) :
    (∃ ms', regAll ms pairs = some ms') ↔
      (pairs.filter fun p => conjTarget ms p.2).Nodup := by
  constructor
  · rintro ⟨ms', h⟩
    exact regAll_some_nodup ms pairs ms' h
  · intro hnd
    exact regAll_some_of_nodup ms pairs hok hnd

/-- The concrete graph of the C10 witness: one broadcaster feeding one
conjunction. -/
def c10ms : List Module :=
  [⟨"b", ModuleVariant.broadcaster ⟨0, [1], []⟩, PulseCounter.zero⟩,
   ⟨"c", ModuleVariant.conjunction ⟨1, [], [], [none, none], 0, 0⟩, PulseCounter.zero⟩]

/-- Witness for C10: the single pair (0, 1) is well formed and duplicate-free,
so registration succeeds. -/
theorem c10_witness :
    (∀ p ∈ [((0 : Nat), (1 : Nat))], pairOk c10ms p = true) ∧
    ([((0 : Nat), (1 : Nat))].filter fun p => conjTarget c10ms p.2).Nodup ∧
    ∃ ms', regAll c10ms [(0, 1)] = some ms' :=
  ⟨by decide, by decide,
   (c10_conjunction_registered_once c10ms [(0, 1)] (by decide)).mpr (by decide)⟩

/-- Is the module able to receive a pulse from input `i` without panicking?
(Only a Conjunction can panic, on an unset or out-of-range memory slot.) -/
def moduleReady (m : Module) (i : Nat) : Bool :=
  match m.variant with
  | ModuleVariant.conjunction c => ((c.memory.get? i).getD none).isSome
  | _ => true

/-- An edge (sender id `i`, target id `o`) is deliverable: the target exists
and is ready to receive from `i`. -/
def edgeOk (ms : List Module) (i o : Nat) : Bool :=
  match ms.get? o with
  | none => false
  | some mo => moduleReady mo i

/-- Every module's variant-stored id is its index. -/
def idsOk (ms : List Module) : Prop := ∀ p ∈ ms.enum, Module.mid p.2 = p.1

/-- `r` is a rank function strictly decreasing along output edges (so the
output graph is acyclic). -/
def rankOk (r : Nat → Nat) (ms : List Module) : Prop :=
  ∀ p ∈ ms.enum, ∀ o ∈ p.2.outputs, r o < r p.1

/-- All output lists are shorter than `B`. -/
def degOk (B : Nat) (ms : List Module) : Prop := ∀ m ∈ ms, m.outputs.length < B

/-- Every declared edge is deliverable (all inputs registered). -/
def edgesOk (ms : List Module) : Prop :=
  ∀ p ∈ ms.enum, ∀ o ∈ p.2.outputs, edgeOk ms p.1 o = true

/-- All queued events travel along deliverable edges. -/
def queueOk (ms : List Module) (q : List Event) : Prop :=
  ∀ e ∈ q, edgeOk ms e.src e.tgt = true

/-- The termination potential of a queue: each pending event weighs
`B ^ rank of its target`. -/
def potential (r : Nat → Nat) (B : Nat) (q : List Event) : Nat :=
  (q.map fun e => B ^ r e.tgt).sum

instance (ms : List Module) : Decidable (idsOk ms) :=
  inferInstanceAs (Decidable (∀ p ∈ ms.enum, Module.mid p.2 = p.1))

instance (r : Nat → Nat) (ms : List Module) : Decidable (rankOk r ms) :=
  inferInstanceAs (Decidable (∀ p ∈ ms.enum, ∀ o ∈ p.2.outputs, r o < r p.1))

instance (B : Nat) (ms : List Module) : Decidable (degOk B ms) :=
  inferInstanceAs (Decidable (∀ m ∈ ms, m.outputs.length < B))

instance (ms : List Module) : Decidable (edgesOk ms) :=
  inferInstanceAs (Decidable (∀ p ∈ ms.enum, ∀ o ∈ p.2.outputs, edgeOk ms p.1 o = true))

instance (ms : List Module) (q : List Event) : Decidable (queueOk ms q) :=
  inferInstanceAs (Decidable (∀ e ∈ q, edgeOk ms e.src e.tgt = true))

/-- A ready module always receives successfully, keeps its outputs, id and
readiness, and emits either nothing or one event per output. -/
theorem receive_pulse_total (m : Module) (i : Nat) (p : Pulse)
    (hok : moduleReady m i = true) :
    ∃ m' evs, m.receive_pulse i p = some (m', evs) ∧
      m'.outputs = m.outputs ∧ m'.mid = m.mid ∧ m'.name = m.name ∧
      (∀ j, moduleReady m j = true → moduleReady m' j = true) ∧
      (evs = [] ∨ ∃ pl, evs = m.outputs.map fun t => Event.mk m.mid t pl) := by
  unfold Module.receive_pulse ModuleVariant.receive_pulse
  cases hv : m.variant with
  | broadcaster b =>
    refine ⟨_, _, rfl, ?_, ?_, rfl, ?_, Or.inr ⟨p, ?_⟩⟩
    · simp [Module.outputs, hv]
    · simp [Module.mid, hv]
    · intro j _
      simp [moduleReady, hv]
    · simp [Broadcaster.receive_pulse, Module.outputs, Module.mid, hv]
  | flipflop f =>
    cases p with
    | Low =>
      refine ⟨_, _, rfl, ?_, ?_, rfl, ?_, Or.inr ⟨(FlipFlop.mk f.id f.state.not f.outputs f.inputs).state, ?_⟩⟩
      · simp [FlipFlop.receive_pulse, Module.outputs, hv]
      · simp [FlipFlop.receive_pulse, Module.mid, hv]
      · intro j _
        simp [moduleReady, FlipFlop.receive_pulse, hv]
      · simp [FlipFlop.receive_pulse, Module.outputs, Module.mid, hv]
    | High =>
      refine ⟨_, _, rfl, ?_, ?_, rfl, ?_, Or.inl ?_⟩
      · simp [FlipFlop.receive_pulse, Module.outputs, hv]
      · simp [FlipFlop.receive_pulse, Module.mid, hv]
      · intro j _
        simp [moduleReady, FlipFlop.receive_pulse, hv]
      · simp [FlipFlop.receive_pulse]
  | conjunction c =>
    unfold moduleReady at hok
    rw [hv] at hok
    dsimp only at hok
    have hsome : ∃ q, c.memory.get? i = some (some q) := by
      cases hg : c.memory.get? i with
      | none => rw [hg] at hok; simp at hok
      | some o =>
        cases o with
        | none => rw [hg] at hok; simp at hok
        | some q => exact ⟨q, rfl⟩
    obtain ⟨remembered, hg⟩ := hsome
    dsimp only
    unfold Conjunction.receive_pulse
    rw [hg]
    dsimp only
    refine ⟨_, _, rfl, ?_, ?_, rfl, ?_, Or.inr ?_⟩
    · cases p <;> cases remembered <;> simp [Module.outputs, hv]
    · cases p <;> cases remembered <;> simp [Module.mid, hv]
    · intro j hj
      unfold moduleReady at hj ⊢
      rw [hv] at hj
      dsimp only at hj ⊢
      by_cases hji : j = i
      · subst hji
        have hg' : c.memory[j]? = some (some remembered) := by
          rw [← List.get?_eq_getElem?]
          exact hg
        cases p <;> cases remembered <;>
          simp [List.get?_eq_getElem?, List.getElem?_set_self', hg']
      · have hj' : (c.memory[j]?.getD none).isSome = true := by
          rw [← List.get?_eq_getElem?]
          exact hj
        cases p <;> cases remembered <;>
          simp [List.get?_eq_getElem?, List.getElem?_set_ne fun he => hji he.symm, hj']
    · have ho : m.outputs = c.outputs := by simp [Module.outputs, hv]
      have hid : m.mid = c.id := by simp [Module.mid, hv]
      rw [ho, hid]
      cases p <;> cases remembered <;> exact ⟨_, rfl⟩

/-- Delivering a pulse preserves deliverability of every edge. -/
theorem edgeOk_set (ms : List Module) (t : Nat) (m m' : Module)
    (hm : ms.get? t = some m)
    (hready : ∀ j, moduleReady m j = true → moduleReady m' j = true)
    (i o : Nat) (h : edgeOk ms i o = true) : edgeOk (ms.set t m') i o = true := by
  unfold edgeOk at h ⊢
  by_cases hot : o = t
  · subst hot
    rw [hm] at h
    dsimp only at h
    have ho : o < ms.length := by
      by_contra hlt
      rw [List.get?_eq_getElem?, List.getElem?_eq_none (Nat.le_of_not_lt hlt)] at hm
      cases hm
    rw [List.get?_eq_getElem?, List.getElem?_set_self ho]
    exact hready i h
  · rw [List.get?_eq_getElem?, List.getElem?_set_ne fun he => hot he.symm,
      ← List.get?_eq_getElem?]
    exact h

/-- The events of one delivery weigh strictly less than the delivered event. -/
theorem potential_events_lt (r : Nat → Nat) (B : Nat) (hB : 0 < B)
    (outs : List Nat) (mid : Nat) (pl : Pulse) (k : Nat)
    (hrank : ∀ o ∈ outs, r o < k) (hdeg : outs.length < B) :
    potential r B (outs.map fun t => Event.mk mid t pl) < B ^ k := by
  cases houts : outs with
  | nil =>
    simp [potential]
    exact Nat.pos_pow_of_pos k hB
  | cons o os =>
    rw [← houts]
    have hk : 1 ≤ k := by
      have := hrank o (houts ▸ List.mem_cons_self o os)
      omega
    have hle : ∀ x ∈ (outs.map fun t => Event.mk mid t pl).map fun e => B ^ r e.tgt,
        x ≤ B ^ (k - 1) := by
      intro x hx
      obtain ⟨e, he, rfl⟩ := List.mem_map.mp hx
      obtain ⟨t, ht, rfl⟩ := List.mem_map.mp he
      have := hrank t ht
      show B ^ r t ≤ B ^ (k - 1)
      exact Nat.pow_le_pow_right hB (by omega)
    have hsum := List.sum_le_card_nsmul _ _ hle
    have hlen : ((outs.map fun t => Event.mk mid t pl).map fun e => B ^ r e.tgt).length
        = outs.length := by simp
    rw [hlen, smul_eq_mul] at hsum
    have hpow : 0 < B ^ (k - 1) := Nat.pos_pow_of_pos _ hB
    have hmul : outs.length * B ^ (k - 1) < B * B ^ (k - 1) :=
      (Nat.mul_lt_mul_right hpow).mpr hdeg
    have hBk : B * B ^ (k - 1) = B ^ k := by
      rw [← pow_succ']
      congr 1
      omega
    unfold potential
    omega

/-- C7 (amended): on module graphs with a rank function strictly decreasing
along output edges (an acyclic output graph, which bounds the cascade by
graph size), with consistent ids and fully registered edges, the drain loop
of a button press terminates: any fuel above the queue's potential reaches
the quiescent empty-queue state. -/
theorem c7_drain_terminates_ranked (r : Nat → Nat) (B : Nat) (hB : 0 < B) :
    ∀ (fuel : Nat) (ms : List Module) (q : List Event),
      idsOk ms → rankOk r ms → degOk B ms → edgesOk ms → queueOk ms q →
      potential r B q < fuel →
      ∃ ms', drainFuel fuel ms q = some ms'
  | 0, _, _, _, _, _, _, _, hfuel => absurd hfuel (Nat.not_lt_zero _)
  | fuel + 1, ms, [], _, _, _, _, _, _ => ⟨ms, rfl⟩
  | fuel + 1, ms, e :: q, hids, hrank, hdeg, hedges, hq, hfuel => by
    have he := hq e (List.mem_cons_self _ _)
    unfold edgeOk at he
    cases hm : ms.get? e.tgt with
    | none => rw [hm] at he; simp at he
    | some m =>
      rw [hm] at he
      dsimp only at he
      obtain ⟨m', evs, hrec, houts, hmid, -, hready, hevs⟩ :=
        receive_pulse_total m e.src e.pulse he
      have htgt : e.tgt < ms.length := by
        by_contra hlt
        rw [List.get?_eq_getElem?, List.getElem?_eq_none (Nat.le_of_not_lt hlt)] at hm
        cases hm
      have henum : (e.tgt, m) ∈ ms.enum := by
        rw [List.mk_mem_enum_iff_getElem?, ← List.get?_eq_getElem?]
        exact hm
      have hmmem : m ∈ ms := List.get?_mem hm
      have hmid_eq : m.mid = e.tgt := hids (e.tgt, m) henum
      have hget₂ : ∀ t mt, (ms.set e.tgt m').get? t = some mt →
          (t = e.tgt ∧ mt = m') ∨ (t ≠ e.tgt ∧ ms.get? t = some mt) := by
        intro t mt hmt
        by_cases hte : t = e.tgt
        · subst hte
          rw [List.get?_eq_getElem?, List.getElem?_set_self htgt] at hmt
          exact Or.inl ⟨rfl, (Option.some.inj hmt).symm⟩
        · rw [List.get?_eq_getElem?, List.getElem?_set_ne fun h2 => hte h2.symm,
            ← List.get?_eq_getElem?] at hmt
          exact Or.inr ⟨hte, hmt⟩
      have hids₂ : idsOk (ms.set e.tgt m') := by
        intro p hp
        rw [List.mk_mem_enum_iff_getElem?, ← List.get?_eq_getElem?] at hp
        rcases hget₂ p.1 p.2 hp with ⟨h1, h2⟩ | ⟨h1, h2⟩
        · rw [h2, h1, hmid, hmid_eq]
        · exact hids p (by rw [List.mk_mem_enum_iff_getElem?, ← List.get?_eq_getElem?]
                           exact h2)
      have hrank₂ : rankOk r (ms.set e.tgt m') := by
        intro p hp o ho
        rw [List.mk_mem_enum_iff_getElem?, ← List.get?_eq_getElem?] at hp
        rcases hget₂ p.1 p.2 hp with ⟨h1, h2⟩ | ⟨h1, h2⟩
        · rw [h2, houts] at ho
          rw [h1]
          exact hrank (e.tgt, m) henum o ho
        · exact hrank p (by rw [List.mk_mem_enum_iff_getElem?, ← List.get?_eq_getElem?]
                            exact h2) o ho
      have hdeg₂ : degOk B (ms.set e.tgt m') := by
        intro x hx
        rcases List.mem_or_eq_of_mem_set hx with hx | rfl
        · exact hdeg x hx
        · rw [houts]
          exact hdeg m hmmem
      have hedges₂ : edgesOk (ms.set e.tgt m') := by
        intro p hp o ho
        rw [List.mk_mem_enum_iff_getElem?, ← List.get?_eq_getElem?] at hp
        rcases hget₂ p.1 p.2 hp with ⟨h1, h2⟩ | ⟨h1, h2⟩
        · rw [h2, houts] at ho
          rw [h1]
          exact edgeOk_set ms e.tgt m m' hm hready _ _ (hedges (e.tgt, m) henum o ho)
        · exact edgeOk_set ms e.tgt m m' hm hready _ _
            (hedges p (by rw [List.mk_mem_enum_iff_getElem?, ← List.get?_eq_getElem?]
                          exact h2) o ho)
      have hq₂ : queueOk (ms.set e.tgt m') (q ++ evs) := by
        intro e' he'
        rcases List.mem_append.mp he' with he' | he'
        · exact edgeOk_set ms e.tgt m m' hm hready _ _ (hq e' (List.mem_cons_of_mem _ he'))
        · rcases hevs with rfl | ⟨pl, rfl⟩
          · cases he'
          · obtain ⟨t, ht, rfl⟩ := List.mem_map.mp he'
            refine edgeOk_set ms e.tgt m m' hm hready _ _ ?_
            have := hedges (e.tgt, m) henum t ht
            rw [hmid_eq]
            exact this
      have hpot₂ : potential r B (q ++ evs) < fuel := by
        have hsplit : potential r B (q ++ evs) = potential r B q + potential r B evs := by
          unfold potential
          rw [List.map_append, List.sum_append]
        have hhead : potential r B (e :: q) = B ^ r e.tgt + potential r B q := by
          unfold potential
          simp
        have hevs_lt : potential r B evs < B ^ r e.tgt := by
          rcases hevs with rfl | ⟨pl, rfl⟩
          · unfold potential
            simp
            exact Nat.pos_pow_of_pos _ hB
          · rw [hmid_eq]
            exact potential_events_lt r B hB m.outputs e.tgt pl (r e.tgt)
              (fun o ho => hrank (e.tgt, m) henum o ho) (hdeg m hmmem)
        rw [hhead] at hfuel
        omega
      obtain ⟨msf, hfin⟩ := c7_drain_terminates_ranked r B hB fuel (ms.set e.tgt m')
        (q ++ evs) hids₂ hrank₂ hdeg₂ hedges₂ hq₂ hpot₂
      refine ⟨msf, ?_⟩
      unfold drainFuel
      rw [hm]
      dsimp only
      rw [hrec]
      exact hfin

/-- The two-module graph the registry builds from the self-looping line
`broadcaster -> broadcaster`. -/
def c7cexMs : List Module :=
  [⟨"broadcaster", ModuleVariant.broadcaster ⟨0, [0], [0]⟩, PulseCounter.zero⟩,
   ⟨"debug", ModuleVariant.broadcaster ⟨1, [], []⟩, PulseCounter.zero⟩]

/-- On the self-looping graph the queue always holds exactly the bootstrap
event again after each delivery, so no amount of fuel drains it. -/
theorem c7cex_drain_spin :
    ∀ (fuel : Nat) (c₁ c₂ : PulseCounter),
      drainFuel fuel
        [⟨"broadcaster", ModuleVariant.broadcaster ⟨0, [0], [0]⟩, c₁⟩,
         ⟨"debug", ModuleVariant.broadcaster ⟨1, [], []⟩, c₂⟩]
        [⟨0, 0, Pulse.Low⟩] = none
  | 0, _, _ => rfl
  | fuel + 1, c₁, c₂ => by
    have ih := c7cex_drain_spin fuel (c₁.addPulse Pulse.Low) c₂
    simpa [drainFuel, Module.receive_pulse, ModuleVariant.receive_pulse,
      Broadcaster.receive_pulse, List.set] using ih

/-- C7 (counterexample): the registry accepts `broadcaster -> broadcaster`,
but the drain loop of its single button press never terminates — the claim's
universal termination statement is false. -/
theorem c7_counterexample :
    set_up_modules "broadcaster -> broadcaster" = some c7cexMs ∧
    ¬ ∃ fuel ms', pressOnce fuel 0 c7cexMs = some ms' := by
  refine ⟨by decide, ?_⟩
  rintro ⟨fuel, ms', h⟩
  have hspin := c7cex_drain_spin fuel PulseCounter.zero PulseCounter.zero
  unfold pressOnce c7cexMs at h
  rw [hspin] at h
  cases h

/-- The concrete ranked graph of the C7 witness. -/
def c7ms : List Module :=
  [⟨"broadcaster", ModuleVariant.broadcaster ⟨0, [1], []⟩, PulseCounter.zero⟩,
   ⟨"a", ModuleVariant.flipflop ⟨1, Pulse.Low, [], [0]⟩, PulseCounter.zero⟩]

/-- Witness for the amended C7 on a concrete two-module ranked graph. -/
theorem c7_witness :
    ((0 : Nat) < 2 ∧ idsOk c7ms ∧ rankOk (fun i => 1 - i) c7ms ∧ degOk 2 c7ms ∧
      edgesOk c7ms ∧ queueOk c7ms [⟨0, 0, Pulse.Low⟩] ∧
      potential (fun i => 1 - i) 2 [⟨0, 0, Pulse.Low⟩] < 4) ∧
    ∃ ms', drainFuel 4 c7ms [⟨0, 0, Pulse.Low⟩] = some ms' :=
  ⟨⟨by decide, by decide, by decide, by decide, by decide, by decide, by decide⟩,
   c7_drain_terminates_ranked (fun i => 1 - i) 2 (by decide) 4 c7ms [⟨0, 0, Pulse.Low⟩]
     (by decide) (by decide) (by decide) (by decide) (by decide) (by decide)⟩

/-- Forget a module's pulse counters (they never influence behaviour). -/
def eraseCounts (m : Module) : Module := { m with counts := PulseCounter.zero }

/-- Forget all counters of a module collection. -/
def eraseL (ms : List Module) : List Module := ms.map eraseCounts

/-- Normalise the mutable state of a variant to its post-construction
default: flip-flops to Low, conjunction memories to all-Low with a zero high
count.  Receiving pulses never changes this signature. -/
def vsig : ModuleVariant → ModuleVariant
  | ModuleVariant.broadcaster b => ModuleVariant.broadcaster b
  | ModuleVariant.flipflop f => ModuleVariant.flipflop { f with state := Pulse.Low }
  | ModuleVariant.conjunction c =>
    ModuleVariant.conjunction
      { c with num_high := 0, memory := c.memory.map fun o => o.map fun _ => Pulse.Low }

/-- A module's immutable signature. -/
def msig (m : Module) : Module :=
  { m with variant := vsig m.variant, counts := PulseCounter.zero }

/-- Immutable signatures of a module collection. -/
def msigL (ms : List Module) : List Module := ms.map msig

/-- Decidable per-module conjunction count invariant. -/
def mOk (m : Module) : Bool :=
  match m.variant with
  | ModuleVariant.conjunction c => c.num_high = countHigh c.memory
  | _ => true

/-- The conjunction count invariant over a collection. -/
def InvL (ms : List Module) : Prop := ∀ m ∈ ms, mOk m = true

instance (ms : List Module) : Decidable (InvL ms) :=
  inferInstanceAs (Decidable (∀ m ∈ ms, mOk m = true))

/-- Componentwise characterisation of `PulseCounter` equality. -/
theorem pc_eq_iff (a b : PulseCounter) : a = b ↔ a.high = b.high ∧ a.low = b.low := by
  constructor
  · intro h
    rw [h]
    exact ⟨rfl, rfl⟩
  · intro ⟨h1, h2⟩
    cases a
    cases b
    simp only at h1 h2
    rw [h1, h2]

/-- A successful variant-level reception never changes the signature. -/
theorem receive_vsig (v v' : ModuleVariant) (i : Nat) (p : Pulse) (evs : List Event)
    (h : ModuleVariant.receive_pulse v i p = some (v', evs)) : vsig v' = vsig v := by
  cases v with
  | broadcaster b =>
    simp only [ModuleVariant.receive_pulse, Option.some.injEq, Prod.mk.injEq] at h
    rw [← h.1]
  | flipflop f =>
    simp only [ModuleVariant.receive_pulse, Option.some.injEq, Prod.mk.injEq] at h
    rw [← h.1]
    unfold FlipFlop.receive_pulse
    by_cases hp : p = Pulse.Low
    · rw [if_pos hp]
      simp [vsig]
    · rw [if_neg hp]
  | conjunction c =>
    simp only [ModuleVariant.receive_pulse] at h
    cases hr : c.receive_pulse i p with
    | none => rw [hr] at h; simp at h
    | some r =>
      obtain ⟨rc, revs⟩ := r
      rw [hr] at h
      simp only [Option.map_some', Option.some.injEq, Prod.mk.injEq] at h
      obtain ⟨h1, -⟩ := h
      subst h1
      unfold Conjunction.receive_pulse at hr
      cases hm : c.memory.get? i with
      | none => rw [hm] at hr; simp at hr
      | some o =>
        cases o with
        | none => rw [hm] at hr; simp at hr
        | some remembered =>
          rw [hm] at hr
          have hmapset : ∀ (x : Pulse),
              ((c.memory.set i (some x)).map fun o => o.map fun _ => Pulse.Low)
                = c.memory.map fun o => o.map fun _ => Pulse.Low := by
            intro x
            rw [List.map_set]
            apply set_get?_self
            rw [List.get?_eq_getElem?, List.getElem?_map, ← List.get?_eq_getElem?, hm]
            rfl
          cases p <;> cases remembered <;>
            (simp only [Option.some.injEq, Prod.mk.injEq] at hr
             obtain ⟨rfl, -⟩ := hr
             simp [vsig, hmapset])

/-- Unfolded form of `Module::receive_pulse` through the variant. -/
theorem module_receive_eq (nm : String) (v : ModuleVariant) (cnt : PulseCounter)
    (i : Nat) (p : Pulse) :
    Module.receive_pulse ⟨nm, v, cnt⟩ i p =
      (ModuleVariant.receive_pulse v i p).map fun r =>
        (⟨nm, r.1, cnt.addPulse p⟩, r.2) := rfl

/-- A successful reception keeps the module signature. -/
theorem receive_msig (m m' : Module) (i : Nat) (p : Pulse) (evs : List Event)
    (h : m.receive_pulse i p = some (m', evs)) : msig m' = msig m := by
  unfold Module.receive_pulse at h
  cases hv : ModuleVariant.receive_pulse m.variant i p with
  | none => rw [hv] at h; simp at h
  | some r =>
    rw [hv] at h
    simp only [Option.map_some', Option.some.injEq, Prod.mk.injEq] at h
    obtain ⟨h1, -⟩ := h
    rw [← h1]
    unfold msig
    simp only
    rw [receive_vsig m.variant r.1 i p r.2 (by rw [hv])]

/-- A successful reception preserves the conjunction count invariant. -/
theorem receive_mOk (m m' : Module) (i : Nat) (p : Pulse) (evs : List Event)
    (h : m.receive_pulse i p = some (m', evs)) (hok : mOk m = true) : mOk m' = true := by
  unfold Module.receive_pulse at h
  cases hvv : m.variant with
  | broadcaster b =>
    rw [hvv] at h
    simp only [ModuleVariant.receive_pulse, Option.map_some', Option.some.injEq,
      Prod.mk.injEq] at h
    obtain ⟨h1, -⟩ := h
    rw [← h1]
    simp [mOk]
  | flipflop f =>
    rw [hvv] at h
    simp only [ModuleVariant.receive_pulse, Option.map_some', Option.some.injEq,
      Prod.mk.injEq] at h
    obtain ⟨h1, -⟩ := h
    rw [← h1]
    simp [mOk]
  | conjunction c =>
    rw [hvv] at h
    simp only [ModuleVariant.receive_pulse] at h
    cases hr : c.receive_pulse i p with
    | none => rw [hr] at h; simp at h
    | some r =>
      rw [hr] at h
      simp only [Option.map_some', Option.some.injEq, Prod.mk.injEq] at h
      obtain ⟨h1, -⟩ := h
      rw [← h1]
      unfold mOk at hok ⊢
      rw [hvv] at hok
      dsimp only at hok ⊢
      have hinv : conjInv c := of_decide_eq_true hok
      have hinv' : conjInv r.1 := conjInv_receive c i p r.1 r.2 hinv (by rw [hr])
      exact decide_eq_true hinv'

/-- Balance law for the summed counters under a single `List.set`. -/
theorem totalCounts_set : ∀ (ms : List Module) (t : Nat) (m m' : Module),
    ms.get? t = some m →
    (totalCounts (ms.set t m')).add m.counts = (totalCounts ms).add m'.counts
  | [], t, m, m', h => by simp at h
  | x :: xs, 0, m, m', h => by
    simp only [List.get?, Option.some.injEq] at h
    subst h
    unfold totalCounts
    simp only [List.set, List.foldr_cons]
    rw [pc_eq_iff]
    unfold PulseCounter.add
    constructor <;> simp <;> omega
  | x :: xs, t + 1, m, m', h => by
    simp only [List.get?] at h
    have ih := totalCounts_set xs t m m' h
    unfold totalCounts at ih ⊢
    simp only [List.set, List.foldr_cons]
    rw [pc_eq_iff] at ih ⊢
    unfold PulseCounter.add at ih ⊢
    constructor <;> simp at ih ⊢ <;> omega

/-- Pointwise consequence of counter-erased equality. -/
theorem eraseL_get? (ms₁ ms₂ : List Module) (h : eraseL ms₁ = eraseL ms₂) (t : Nat) :
    (ms₁.get? t).map eraseCounts = (ms₂.get? t).map eraseCounts := by
  have h' := congrArg (fun l => l.get? t) h
  simpa only [eraseL, List.get?_eq_getElem?, List.getElem?_map] using h'

/-- Counter erasure identifies exactly the modules agreeing on name and
variant. -/
theorem eraseCounts_eq_iff (m₁ m₂ : Module) :
    eraseCounts m₁ = eraseCounts m₂ ↔ m₁.name = m₂.name ∧ m₁.variant = m₂.variant := by
  unfold eraseCounts
  constructor
  · intro h
    have h1 := congrArg Module.name h
    have h2 := congrArg Module.variant h
    exact ⟨h1, h2⟩
  · intro ⟨h1, h2⟩
    cases m₁
    cases m₂
    simp only at h1 h2 ⊢
    rw [h1, h2]

/-- Drain congruence: the counters never influence behaviour.  Two module
collections equal up to counters drain in lock step, produce counter-erased
equal states, and accumulate the same counter delta. -/
theorem drain_congr : ∀ (fuel : Nat) (ms₁ ms₂ : List Module) (q : List Event),
    eraseL ms₁ = eraseL ms₂ →
    ((drainFuel fuel ms₁ q = none ∧ drainFuel fuel ms₂ q = none) ∨
      ∃ r₁ r₂, drainFuel fuel ms₁ q = some r₁ ∧ drainFuel fuel ms₂ q = some r₂ ∧
        eraseL r₁ = eraseL r₂ ∧
        (totalCounts r₁).add (totalCounts ms₂) = (totalCounts r₂).add (totalCounts ms₁))
  | fuel, ms₁, ms₂, [], he => by
    right
    refine ⟨ms₁, ms₂, ?_, ?_, he, ?_⟩
    · cases fuel <;> rfl
    · cases fuel <;> rfl
    · rw [pc_eq_iff]
      unfold PulseCounter.add
      constructor <;> simp <;> omega
  | 0, ms₁, ms₂, _ :: _, _ => Or.inl ⟨rfl, rfl⟩
  | fuel + 1, ms₁, ms₂, e :: q, he => by
    have hg := eraseL_get? ms₁ ms₂ he e.tgt
    cases hm₁ : ms₁.get? e.tgt with
    | none =>
      rw [hm₁] at hg
      cases hm₂ : ms₂.get? e.tgt with
      | none =>
        left
        constructor
        · unfold drainFuel
          rw [hm₁]
        · unfold drainFuel
          rw [hm₂]
      | some m₂ =>
        rw [hm₂] at hg
        simp at hg
    | some m₁ =>
      rw [hm₁] at hg
      cases hm₂ : ms₂.get? e.tgt with
      | none =>
        rw [hm₂] at hg
        simp at hg
      | some m₂ =>
        rw [hm₂] at hg
        simp only [Option.map_some', Option.some.injEq] at hg
        have hnm : m₁.name = m₂.name := ((eraseCounts_eq_iff m₁ m₂).mp hg).1
        have hv : m₁.variant = m₂.variant := ((eraseCounts_eq_iff m₁ m₂).mp hg).2
        cases hr : ModuleVariant.receive_pulse m₁.variant e.src e.pulse with
        | none =>
          left
          constructor
          · unfold drainFuel
            rw [hm₁]
            dsimp only
            unfold Module.receive_pulse
            rw [hr]
            rfl
          · unfold drainFuel
            rw [hm₂]
            dsimp only
            unfold Module.receive_pulse
            rw [← hv, hr]
            rfl
        | some r =>
          obtain ⟨v', evs⟩ := r
          have hrec₁ : m₁.receive_pulse e.src e.pulse =
              some ({ m₁ with variant := v', counts := m₁.counts.addPulse e.pulse }, evs) := by
            unfold Module.receive_pulse
            rw [hr]
            rfl
          have hrec₂ : m₂.receive_pulse e.src e.pulse =
              some ({ m₂ with variant := v', counts := m₂.counts.addPulse e.pulse }, evs) := by
            unfold Module.receive_pulse
            rw [← hv, hr]
            rfl
          have he' : eraseL (ms₁.set e.tgt { m₁ with variant := v', counts := m₁.counts.addPulse e.pulse })
              = eraseL (ms₂.set e.tgt { m₂ with variant := v', counts := m₂.counts.addPulse e.pulse }) := by
            unfold eraseL at he ⊢
            rw [List.map_set, List.map_set, he]
            congr 1
            rw [eraseCounts_eq_iff]
            exact ⟨hnm, rfl⟩
          have ih := drain_congr fuel
            (ms₁.set e.tgt { m₁ with variant := v', counts := m₁.counts.addPulse e.pulse })
            (ms₂.set e.tgt { m₂ with variant := v', counts := m₂.counts.addPulse e.pulse })
            (q ++ evs) he'
          have ht₁ := totalCounts_set ms₁ e.tgt m₁
            { m₁ with variant := v', counts := m₁.counts.addPulse e.pulse } hm₁
          have ht₂ := totalCounts_set ms₂ e.tgt m₂
            { m₂ with variant := v', counts := m₂.counts.addPulse e.pulse } hm₂
          rcases ih with ⟨ih₁, ih₂⟩ | ⟨r₁, r₂, ihs₁, ihs₂, ihe, iht⟩
          · left
            constructor
            · unfold drainFuel
              rw [hm₁]
              dsimp only
              rw [hrec₁]
              exact ih₁
            · unfold drainFuel
              rw [hm₂]
              dsimp only
              rw [hrec₂]
              exact ih₂
          · right
            refine ⟨r₁, r₂, ?_, ?_, ihe, ?_⟩
            · unfold drainFuel
              rw [hm₁]
              dsimp only
              rw [hrec₁]
              exact ihs₁
            · unfold drainFuel
              rw [hm₂]
              dsimp only
              rw [hrec₂]
              exact ihs₂
            · have had1 : ∀ cnt : PulseCounter, (cnt.addPulse e.pulse).high
                  = cnt.high + (if e.pulse = Pulse.High then 1 else 0) := by
                intro cnt
                cases e.pulse <;> simp [PulseCounter.addPulse]
              have had2 : ∀ cnt : PulseCounter, (cnt.addPulse e.pulse).low
                  = cnt.low + (if e.pulse = Pulse.Low then 1 else 0) := by
                intro cnt
                cases e.pulse <;> simp [PulseCounter.addPulse]
              rw [pc_eq_iff] at iht ht₁ ht₂ ⊢
              unfold PulseCounter.add at iht ht₁ ht₂ ⊢
              obtain ⟨a1, a2⟩ := iht
              obtain ⟨b1, b2⟩ := ht₁
              obtain ⟨c1, c2⟩ := ht₂
              simp only [had1, had2] at b1 b2 c1 c2
              constructor <;> simp only [] at a1 a2 b1 b2 c1 c2 ⊢ <;> omega

/-- Draining preserves every module's immutable signature. -/
theorem drain_msig : ∀ (fuel : Nat) (ms : List Module) (q : List Event) (ms' : List Module),
    drainFuel fuel ms q = some ms' → msigL ms' = msigL ms
  | fuel, ms, [], ms', h => by
    obtain rfl : ms = ms' := by cases fuel <;> exact Option.some.inj h
    rfl
  | 0, _, _ :: _, ms', h => by cases h
  | fuel + 1, ms, e :: q, ms', h => by
    unfold drainFuel at h
    cases hm : ms.get? e.tgt with
    | none => rw [hm] at h; cases h
    | some m =>
      rw [hm] at h
      dsimp only at h
      cases hr : m.receive_pulse e.src e.pulse with
      | none => rw [hr] at h; cases h
      | some r =>
        obtain ⟨m', evs⟩ := r
        rw [hr] at h
        dsimp only at h
        have ih := drain_msig fuel (ms.set e.tgt m') (q ++ evs) ms' h
        rw [ih]
        unfold msigL
        rw [List.map_set, receive_msig m m' e.src e.pulse evs hr]
        apply set_get?_self
        rw [List.get?_eq_getElem?, List.getElem?_map, ← List.get?_eq_getElem?, hm]
        rfl

/-- Draining preserves the conjunction count invariant. -/
theorem drain_InvL : ∀ (fuel : Nat) (ms : List Module) (q : List Event) (ms' : List Module),
    drainFuel fuel ms q = some ms' → InvL ms → InvL ms'
  | fuel, ms, [], ms', h, hinv => by
    obtain rfl : ms = ms' := by cases fuel <;> exact Option.some.inj h
    exact hinv
  | 0, _, _ :: _, ms', h, _ => by cases h
  | fuel + 1, ms, e :: q, ms', h, hinv => by
    unfold drainFuel at h
    cases hm : ms.get? e.tgt with
    | none => rw [hm] at h; cases h
    | some m =>
      rw [hm] at h
      dsimp only at h
      cases hr : m.receive_pulse e.src e.pulse with
      | none => rw [hr] at h; cases h
      | some r =>
        obtain ⟨m', evs⟩ := r
        rw [hr] at h
        dsimp only at h
        refine drain_InvL fuel (ms.set e.tgt m') (q ++ evs) ms' h ?_
        intro x hx
        rcases List.mem_or_eq_of_mem_set hx with hx | rfl
        · exact hinv x hx
        · exact receive_mOk m x e.src e.pulse evs hr (hinv m (List.get?_mem hm))

/-- In the initial state (with a consistent count) the signature already IS
the counter-erased module. -/
theorem msig_eq_erase (m : Module) (hinit : m.is_in_initial_state = true)
    (hok : mOk m = true) : msig m = eraseCounts m := by
  unfold msig eraseCounts
  have hvv : vsig m.variant = m.variant := by
    unfold Module.is_in_initial_state at hinit
    unfold mOk at hok
    cases hv : m.variant with
    | broadcaster b => rfl
    | flipflop f =>
      rw [hv] at hinit
      dsimp only at hinit
      have hstate : f.state = Pulse.Low := of_decide_eq_true hinit
      unfold vsig
      rw [← hstate]
    | conjunction c =>
      rw [hv] at hinit hok
      dsimp only at hinit hok
      have hnh : c.num_high = 0 := of_decide_eq_true hinit
      have hcnt : c.num_high = countHigh c.memory := of_decide_eq_true hok
      have hcount : countHigh c.memory = 0 := by omega
      have hmem : (c.memory.map fun o => o.map fun _ => Pulse.Low) = c.memory := by
        have hz := List.countP_eq_zero.mp hcount
        have : ∀ x ∈ c.memory, (x.map fun _ => Pulse.Low) = id x := by
          intro x hx
          have hxh := hz x hx
          cases x with
          | none => rfl
          | some p =>
            cases p with
            | High => simp at hxh
            | Low => rfl
        rw [List.map_congr_left this, List.map_id]
      unfold vsig
      dsimp only
      rw [hmem, ← hnh]
  rw [hvv]

/-- Over a whole collection in the initial state, signatures and erased
counters agree. -/
theorem msigL_eq_eraseL (ms : List Module) (hinit : allInitial ms = true)
    (hinv : InvL ms) : msigL ms = eraseL ms := by
  unfold msigL eraseL
  apply List.map_congr_left
  intro m hm
  have h1 : m.is_in_initial_state = true := by
    unfold allInitial at hinit
    exact List.all_eq_true.mp hinit m hm
  exact msig_eq_erase m h1 (hinv m hm)

/-- Splitting a press sequence. -/
theorem pressN_add (fuel b : Nat) : ∀ (a c : Nat) (ms : List Module),
    pressN fuel b (a + c) ms = (pressN fuel b a ms).bind (pressN fuel b c)
  | 0, c, ms => by
    show pressN fuel b (0 + c) ms = (some ms).bind (pressN fuel b c)
    rw [Nat.zero_add, Option.some_bind]
  | a + 1, c, ms => by
    have h1 : a + 1 + c = (a + c) + 1 := by omega
    rw [h1]
    show (pressOnce fuel b ms).bind (pressN fuel b (a + c)) =
      ((pressOnce fuel b ms).bind (pressN fuel b a)).bind (pressN fuel b c)
    rw [Option.bind_assoc]
    cases hp : pressOnce fuel b ms with
    | none => rfl
    | some ms1 =>
      rw [Option.some_bind, Option.some_bind]
      exact pressN_add fuel b a c ms1

/-- Press-sequence congruence up to counters. -/
theorem pressN_congr (fuel b : Nat) : ∀ (n : Nat) (ms₁ ms₂ : List Module),
    eraseL ms₁ = eraseL ms₂ →
    ((pressN fuel b n ms₁ = none ∧ pressN fuel b n ms₂ = none) ∨
      ∃ r₁ r₂, pressN fuel b n ms₁ = some r₁ ∧ pressN fuel b n ms₂ = some r₂ ∧
        eraseL r₁ = eraseL r₂ ∧
        (totalCounts r₁).add (totalCounts ms₂) = (totalCounts r₂).add (totalCounts ms₁))
  | 0, ms₁, ms₂, he => by
    right
    refine ⟨ms₁, ms₂, rfl, rfl, he, ?_⟩
    rw [pc_eq_iff]
    unfold PulseCounter.add
    constructor <;> simp <;> omega
  | n + 1, ms₁, ms₂, he => by
    rcases drain_congr fuel ms₁ ms₂ [⟨b, b, Pulse.Low⟩] he with ⟨h1, h2⟩ | ⟨s₁, s₂, h1, h2, he', ht⟩
    · left
      constructor
      · show (pressOnce fuel b ms₁).bind (pressN fuel b n) = none
        unfold pressOnce
        rw [h1]
        rfl
      · show (pressOnce fuel b ms₂).bind (pressN fuel b n) = none
        unfold pressOnce
        rw [h2]
        rfl
    · rcases pressN_congr fuel b n s₁ s₂ he' with ⟨g1, g2⟩ | ⟨r₁, r₂, g1, g2, ge, gt⟩
      · left
        constructor
        · show (pressOnce fuel b ms₁).bind (pressN fuel b n) = none
          unfold pressOnce
          rw [h1, Option.some_bind]
          exact g1
        · show (pressOnce fuel b ms₂).bind (pressN fuel b n) = none
          unfold pressOnce
          rw [h2, Option.some_bind]
          exact g2
      · right
        refine ⟨r₁, r₂, ?_, ?_, ge, ?_⟩
        · show (pressOnce fuel b ms₁).bind (pressN fuel b n) = some r₁
          unfold pressOnce
          rw [h1, Option.some_bind]
          exact g1
        · show (pressOnce fuel b ms₂).bind (pressN fuel b n) = some r₂
          unfold pressOnce
          rw [h2, Option.some_bind]
          exact g2
        · rw [pc_eq_iff] at ht gt ⊢
          unfold PulseCounter.add at ht gt ⊢
          obtain ⟨t1, t2⟩ := ht
          obtain ⟨u1, u2⟩ := gt
          constructor <;> simp only [] at t1 t2 u1 u2 ⊢ <;> omega

/-- Pressing preserves signatures. -/
theorem pressN_msig (fuel b : Nat) : ∀ (n : Nat) (ms ms' : List Module),
    pressN fuel b n ms = some ms' → msigL ms' = msigL ms
  | 0, ms, ms', h => by rw [← Option.some.inj h]
  | n + 1, ms, ms', h => by
    replace h : (pressOnce fuel b ms).bind (pressN fuel b n) = some ms' := h
    cases hp : pressOnce fuel b ms with
    | none => rw [hp] at h; cases h
    | some ms1 =>
      rw [hp, Option.some_bind] at h
      have h1 := drain_msig fuel ms [⟨b, b, Pulse.Low⟩] ms1 hp
      have h2 := pressN_msig fuel b n ms1 ms' h
      rw [h2, h1]

/-- Pressing preserves the conjunction count invariant. -/
theorem pressN_InvL (fuel b : Nat) : ∀ (n : Nat) (ms ms' : List Module),
    pressN fuel b n ms = some ms' → InvL ms → InvL ms'
  | 0, ms, ms', h, hinv => by
    rw [← Option.some.inj h]
    exact hinv
  | n + 1, ms, ms', h, hinv => by
    replace h : (pressOnce fuel b ms).bind (pressN fuel b n) = some ms' := h
    cases hp : pressOnce fuel b ms with
    | none => rw [hp] at h; cases h
    | some ms1 =>
      rw [hp, Option.some_bind] at h
      exact pressN_InvL fuel b n ms1 ms' h
        (drain_InvL fuel ms [⟨b, b, Pulse.Low⟩] ms1 hp hinv)

/-- Periodic replay: once a full cycle returns to the (erased) initial state,
every further `qq` whole cycles plus `r` presses succeed, land in a state
erased-equal to the plain `r`-press state, and accumulate exactly `qq` cycle
counts on top of the remainder counts. -/
theorem press_periodic (fuel b c : Nat) (ms0 msc : List Module)
    (hzero : totalCounts ms0 = PulseCounter.zero)
    (hcyc : pressN fuel b c ms0 = some msc)
    (hsig : eraseL msc = eraseL ms0) :
    ∀ (qq r : Nat) (msr : List Module), pressN fuel b r ms0 = some msr →
      ∃ s, pressN fuel b (qq * c + r) ms0 = some s ∧ eraseL s = eraseL msr ∧
        totalCounts s = ((totalCounts msc).mulNat qq).add (totalCounts msr)
  | 0, r, msr, hr => by
    refine ⟨msr, by simpa using hr, rfl, ?_⟩
    rw [pc_eq_iff]
    unfold PulseCounter.mulNat PulseCounter.add
    constructor <;> simp
  | qq + 1, r, msr, hr => by
    obtain ⟨s, hs, hse, hst⟩ := press_periodic fuel b c ms0 msc hzero hcyc hsig qq r msr hr
    have harith : (qq + 1) * c + r = c + (qq * c + r) := by ring
    rw [harith, pressN_add fuel b c (qq * c + r) ms0, hcyc, Option.some_bind]
    rcases pressN_congr fuel b (qq * c + r) msc ms0 hsig with ⟨g1, g2⟩ | ⟨r₁, r₂, g1, g2, ge, gt⟩
    · rw [hs] at g2
      cases g2
    · obtain rfl : r₂ = s := by
        rw [g2] at hs
        exact Option.some.inj hs
      refine ⟨r₁, g1, ?_, ?_⟩
      · rw [ge, hse]
      · have hmul : (totalCounts msc).mulNat (qq + 1)
            = ((totalCounts msc).mulNat qq).add (totalCounts msc) := by
          rw [pc_eq_iff]
          unfold PulseCounter.mulNat PulseCounter.add
          constructor <;> simp <;> ring
        rw [hmul]
        rw [pc_eq_iff] at gt hst hzero ⊢
        unfold PulseCounter.add at gt hst ⊢
        unfold PulseCounter.zero at hzero
        obtain ⟨w1, w2⟩ := gt
        obtain ⟨x1, x2⟩ := hst
        obtain ⟨z1, z2⟩ := hzero
        constructor <;> simp only [] at w1 w2 x1 x2 z1 z2 ⊢ <;> omega

/-- C3: if after `c` presses from the initial state every module reports its
initial state again, then for ANY press budget `N` the shortcut total —
one full cycle's counts times `N / c` plus the counts of replaying the
`N % c` remainder presses from the initial state — equals the counter total
of directly simulating all `N` presses. -/
theorem c3_cycle_shortcut (fuel b c N : Nat) (ms0 msc : List Module)
    (hcpos : 0 < c)
    (hinit : allInitial ms0 = true)
    (hinv : InvL ms0)
    (hzero : totalCounts ms0 = PulseCounter.zero)
    (hcyc : pressN fuel b c ms0 = some msc)
    (hback : allInitial msc = true) :
    ∃ msr msN,
      pressN fuel b (N % c) ms0 = some msr ∧
      pressN fuel b N ms0 = some msN ∧
      totalCounts msN = ((totalCounts msc).mulNat (N / c)).add (totalCounts msr) := by
  have hsig_pres : msigL msc = msigL ms0 := pressN_msig fuel b c ms0 msc hcyc
  have hinv_c : InvL msc := pressN_InvL fuel b c ms0 msc hcyc hinv
  have h1 : msigL ms0 = eraseL ms0 := msigL_eq_eraseL ms0 hinit hinv
  have h2 : msigL msc = eraseL msc := msigL_eq_eraseL msc hback hinv_c
  have hsig : eraseL msc = eraseL ms0 := by rw [← h2, hsig_pres, h1]
  have hdecomp : (N % c) + (c - N % c) = c := by
    have := Nat.mod_lt N hcpos
    omega
  have hex : ∃ msr, pressN fuel b (N % c) ms0 = some msr := by
    cases hp : pressN fuel b (N % c) ms0 with
    | some msr => exact ⟨msr, rfl⟩
    | none =>
      have hsplit := pressN_add fuel b (N % c) (c - N % c) ms0
      rw [hdecomp, hp] at hsplit
      rw [hsplit] at hcyc
      cases hcyc
  obtain ⟨msr, hr⟩ := hex
  obtain ⟨msN, hsN, -, hst⟩ :=
    press_periodic fuel b c ms0 msc hzero hcyc hsig (N / c) (N % c) msr hr
  have hN : N / c * c + N % c = N := by
    rw [Nat.mul_comm]
    exact Nat.div_add_mod N c
  rw [hN] at hsN
  exact ⟨msr, msN, hr, hsN, hst⟩

/-- The Scenario A module collection (C3 witness input). -/
def msA : List Module := (set_up_modules scenarioA).getD []

/-- Scenario A after one press (its cycle closes after a single press). -/
def msA1 : List Module := (pressN 40 0 1 msA).getD []

/-- Witness for C3 on Scenario A: cycle length 1, press budget 5. -/
theorem c3_witness :
    ((0 : Nat) < 1 ∧ allInitial msA = true ∧ InvL msA ∧
      totalCounts msA = PulseCounter.zero ∧
      pressN 40 0 1 msA = some msA1 ∧ allInitial msA1 = true) ∧
    ∃ msr msN,
      pressN 40 0 (5 % 1) msA = some msr ∧
      pressN 40 0 5 msA = some msN ∧
      totalCounts msN = ((totalCounts msA1).mulNat (5 / 1)).add (totalCounts msr) :=
  ⟨⟨by decide, by decide, by decide, by decide, by decide, by decide⟩,
   c3_cycle_shortcut 40 0 1 5 msA msA1 (by decide) (by decide) (by decide)
     (by decide) (by decide) (by decide)⟩

/-- A two-module graph (root broadcaster feeding one flip-flop) used as the
concrete input of the C4 witness. -/
def c4ms : List Module :=
  [⟨"broadcaster", ModuleVariant.broadcaster ⟨0, [1], []⟩, PulseCounter.zero⟩,
   ⟨"a", ModuleVariant.flipflop ⟨1, Pulse.Low, [], [0]⟩, PulseCounter.zero⟩]

/-- Witness for C4: analyzing the flip-flop of `c4ms` produces the schedule
(0, High), (0, Low) with period 1, and the contract applies to it. -/
theorem c4_witness :
    getPresses (1 + 1) c4ms
      ⟨"a", ModuleVariant.flipflop ⟨1, Pulse.Low, [], [0]⟩, PulseCounter.zero⟩ []
      = Except.ok ([⟨0, Pulse.High⟩, ⟨0, Pulse.Low⟩], 1) ∧
    ∃ input_data pulses,
      mapMex (fun i => do
          let mi ← moduleAt c4ms i
          let r ← getPresses 1 c4ms mi ([] ++ ["a"])
          pure (filterLow r.1, r.2))
        (FlipFlop.mk 1 Pulse.Low [] [0]).inputs = Except.ok input_data ∧
      (∀ pp ∈ input_data, ∀ e ∈ pp.1, e.pulse = Pulse.Low) ∧
      merge_periods input_data = some (pulses, 1) ∧
      reduceLcm (input_data.map (·.2)) = some 1 ∧
      ([⟨0, Pulse.High⟩, ⟨0, Pulse.Low⟩] : List PulseAtTime)
        = alternateFromHigh (doubleIfOdd pulses) ∧
      ([⟨0, Pulse.High⟩, ⟨0, Pulse.Low⟩] : List PulseAtTime).length % 2 = 0 ∧
      (∀ k (hk : k < ([⟨0, Pulse.High⟩, ⟨0, Pulse.Low⟩] : List PulseAtTime).length),
        (([⟨0, Pulse.High⟩, ⟨0, Pulse.Low⟩] : List PulseAtTime).get ⟨k, hk⟩).pulse
          = if k % 2 = 0 then Pulse.High else Pulse.Low) ∧
      (∀ k (hk : k < (([⟨0, Pulse.High⟩, ⟨0, Pulse.Low⟩] : List PulseAtTime)
          ++ ([⟨0, Pulse.High⟩, ⟨0, Pulse.Low⟩] : List PulseAtTime)).length),
        ((([⟨0, Pulse.High⟩, ⟨0, Pulse.Low⟩] : List PulseAtTime)
          ++ ([⟨0, Pulse.High⟩, ⟨0, Pulse.Low⟩] : List PulseAtTime)).get ⟨k, hk⟩).pulse
          = if k % 2 = 0 then Pulse.High else Pulse.Low) :=
  ⟨by decide,
   c4_flipflop_schedule 1 c4ms "a" ⟨1, Pulse.Low, [], [0]⟩ PulseCounter.zero []
     [⟨0, Pulse.High⟩, ⟨0, Pulse.Low⟩] 1 (by decide)⟩

/-- C5 (counterexample): a line with the unknown variant marker `#` does NOT
abort construction — `Module::new` happily produces a Broadcaster whose name
retains the marker (only `%` and `&` are special; everything else falls into
the Broadcaster arm). -/
theorem c5_counterexample :
    Module.new 0 "#foo -> bar" [] =
      some ⟨"#foo", ModuleVariant.broadcaster (Broadcaster.new 0 [0]), PulseCounter.zero⟩ := by
  decide

/-- C5 (amended): `Module::new` aborts exactly on the lines missing the
` -> ` separator (this also covers the empty line); a present separator with
any leading character other than `%`/`&` never aborts and yields a
Broadcaster module. -/
theorem c5_unparseable_lines (id : Nat) (line : String) (map : List (String × Nat)) :
    (Module.new id line map = none ↔ splitOnceL arrowSep line.data = none) ∧
    (∀ c pr, line.data.head? = some c → c ≠ '%' → c ≠ '&' →
      splitOnceL arrowSep line.data = some pr →
      ∃ nm, Module.new id line map =
        some ⟨nm, ModuleVariant.broadcaster (Broadcaster.new id
          (load_outputs (String.mk pr.2) map)), PulseCounter.zero⟩) := by
  constructor
  · constructor
    · intro hnew
      cases hs : splitOnceL arrowSep line.data with
      | none => rfl
      | some pr =>
        exfalso
        have hname := extract_isSome_of_split line pr.1 pr.2 hs
        cases hd : line.data with
        | nil => rw [hd] at hs; simp [splitOnceL] at hs
        | cons c rest =>
          unfold Module.new at hnew
          rw [hd] at hnew
          simp only [List.head?] at hnew
          rw [← hd, hs] at hnew
          cases he : extract_module_name_from_line line with
          | none => rw [he] at hname; simp at hname
          | some nm => rw [he] at hnew; simp at hnew
    · intro hs
      unfold Module.new
      cases hd : line.data with
      | nil => simp
      | cons c rest =>
        simp only [List.head?]
        rw [← hd, hs]
  · intro c pr hc hc1 hc2 hs
    have hname := extract_isSome_of_split line pr.1 pr.2 hs
    cases he : extract_module_name_from_line line with
    | none => rw [he] at hname; simp at hname
    | some nm =>
      refine ⟨nm, ?_⟩
      unfold Module.new
      cases hd : line.data with
      | nil => rw [hd] at hc; simp at hc
      | cons c0 rest =>
        rw [hd] at hc
        simp only [List.head?, Option.some.injEq] at hc
        subst hc
        simp only [List.head?]
        rw [← hd, hs, he]
        simp [hc1, hc2]

/-- Witness for C5 at the concrete line `#foo -> bar`. -/
theorem c5_witness :
    (("#foo -> bar" : String).data.head? = some '#' ∧ ('#' : Char) ≠ '%' ∧ ('#' : Char) ≠ '&' ∧
      splitOnceL arrowSep ("#foo -> bar" : String).data =
        some ("#foo".data, "bar".data)) ∧
    ∃ nm, Module.new 0 "#foo -> bar" [] =
      some ⟨nm, ModuleVariant.broadcaster (Broadcaster.new 0
        (load_outputs (String.mk "bar".data) [])), PulseCounter.zero⟩ :=
  ⟨⟨by decide, by decide, by decide, by decide⟩,
   (c5_unparseable_lines 0 "#foo -> bar" []).2 '#' ("#foo".data, "bar".data)
     (by decide) (by decide) (by decide) (by decide)⟩

/-- Witness for C6 at a concrete module and stack. -/
theorem c6_witness :
    ("inv" : String) ∈ ["broadcaster", "inv"] ∧
    getPresses 5 []
      ⟨"inv", ModuleVariant.conjunction (Conjunction.new 0 [] 0), PulseCounter.zero⟩
      ["broadcaster", "inv"] = Except.error (AnalyzeErr.cycle "inv") :=
  ⟨by decide,
   c6_cycle_reentry_diagnostic 5 []
     ⟨"inv", ModuleVariant.conjunction (Conjunction.new 0 [] 0), PulseCounter.zero⟩
     ["broadcaster", "inv"] (by decide)⟩

end Day20
